import Mathlib

/-!
Verification of the KubeBlocks dependency-graph core (`pkg/controller/graph`)
and the view object-tree / reachability-set utilities
(`controllers/view/util.go`).

The Go code is shallowly embedded:

* Go `Vertex` is `interface{}` with reference identity; we model vertices
  as natural numbers, with `Option Nat` at API boundaries where Go allows
  a `nil` vertex (`none` stands for `nil`).
* Go `map[Vertex]Vertex` (a key set) is modelled as a `List Nat` whose
  mutations mirror map-key semantics; `map[Edge]Edge` keyed by edge
  instances, with endpoint-pair deduplication performed by
  `AddEdge`/`Connect`, is modelled as a `List (Nat × Nat)` of endpoint
  pairs.
* The recursive DFS helpers in `validate` and `topologicalOrder`, the
  recursive tree builder and the collector queue loop carry an explicit
  fuel parameter; fuel exhaustion (`none` / a dedicated error) models
  nontermination of the Go recursion.  Lemmas below show the chosen fuel
  is never exhausted on the inputs the claims are about.
* The external read boundary of the view utilities (`cli.Scheme()`,
  `getObjectsByGVK`, `parseMatchingLabels`) is a parameter (`QueryEnv`).
-/

namespace KB

/-- The DAG of `pkg/controller/graph`: a vertex set and an edge set.
Vertices are opaque handles (here: `Nat`); edges are endpoint pairs. -/
structure DAG where
  vertices : List Nat
  edges : List (Nat × Nat)
deriving DecidableEq

namespace DAG

/-- `AddVertex` puts `v` into `d`; `nil` (`none`) is rejected with `false`.
Go map insertion with an existing key is a no-op on the key set. -/
def AddVertex (d : DAG) (v : Option Nat) : DAG × Bool :=
  match v with
  | none => (d, false)
  | some x =>
    if x ∈ d.vertices then (d, true)
    else ({ d with vertices := d.vertices ++ [x] }, true)

/-- `RemoveVertex` deletes `v` from `d` together with every edge having `v`
as `From` or `To`; `nil` is a harmless no-op returning `true`. -/
def RemoveVertex (d : DAG) (v : Option Nat) : DAG × Bool :=
  match v with
  | none => (d, true)
  | some x =>
    ({ vertices := d.vertices.filter (fun w => decide ¬(w = x)),
       edges := d.edges.filter (fun e => decide ¬(e.1 = x ∨ e.2 = x)) }, true)

/-- `Vertices` returns all vertices of `d`. -/
def Vertices (d : DAG) : List Nat := d.vertices

/-- `AddEdge` puts an edge into `d`; a `nil` endpoint fails with `false`;
an edge whose endpoint pair is already present is not stored again. -/
def AddEdge (d : DAG) (e : Option Nat × Option Nat) : DAG × Bool :=
  match e with
  | (some a, some b) =>
    if d.edges.any (fun k => decide (k.1 = a ∧ k.2 = b)) then (d, true)
    else ({ d with edges := d.edges ++ [(a, b)] }, true)
  | _ => (d, false)

/-- `RemoveEdge` deletes every stored edge whose endpoint pair matches `e`. -/
def RemoveEdge (d : DAG) (e : Nat × Nat) : DAG × Bool :=
  ({ d with edges := d.edges.filter (fun k => decide ¬(k.1 = e.1 ∧ k.2 = e.2)) }, true)

/-- `Connect` links `from` to `to` by a fresh edge unless an edge with the
same endpoint pair already exists; a `nil` endpoint fails with `false`. -/
def Connect (d : DAG) (f t : Option Nat) : DAG × Bool :=
  match f, t with
  | some a, some b =>
    if d.edges.any (fun k => decide (k.1 = a ∧ k.2 = b)) then (d, true)
    else ({ d with edges := d.edges ++ [(a, b)] }, true)
  | _, _ => (d, false)

/-- `outAdj` returns all adjacent vertices that `v` points to. -/
def outAdj (d : DAG) (v : Nat) : List Nat :=
  (d.edges.filter (fun e => decide (e.1 = v))).map (·.2)

/-- `inAdj` returns all adjacent vertices that point to `v`. -/
def inAdj (d : DAG) (v : Nat) : List Nat :=
  (d.edges.filter (fun e => decide (e.2 = v))).map (·.1)

/-- `Root` returns the unique vertex with no in-adjacency, or `nil` (`none`)
when zero or more than one such vertex exists. -/
def Root (d : DAG) : Option Nat :=
  match d.vertices.filter (fun n => decide ((d.inAdj n).length = 0)) with
  | [r] => some r
  | _ => none

end DAG

/-- `NewDAG` builds an empty DAG. -/
def NewDAG : DAG := ⟨[], []⟩

/-! ### DFS walks of `validate` and `topologicalOrder` -/

/-- The edge relation of a DAG. -/
def Rel (d : DAG) (u v : Nat) : Prop := (u, v) ∈ d.edges

/-- No directed cycle of any length (self-loops included). -/
def Acyclic (d : DAG) : Prop := ∀ v, ¬ Relation.TransGen (Rel d) v v

/-- Every stored edge has both endpoints in the vertex set. -/
def EdgesClosed (d : DAG) : Prop :=
  ∀ e ∈ d.edges, e.1 ∈ d.vertices ∧ e.2 ∈ d.vertices

/-- A structurally valid DAG: single root, acyclic, edges between stored
vertices. -/
def ValidDAG (d : DAG) : Prop :=
  (∃ r, d.Root = some r) ∧ Acyclic d ∧ EdgesClosed d

/-- Every handle either DFS can touch: the vertex set plus all edge
endpoints. -/
def allNodes (d : DAG) : List Nat :=
  d.vertices ++ d.edges.map (·.1) ++ d.edges.map (·.2)

/-- Recursion budget handed to the DFS helpers: strictly more than the
number of distinct touchable handles, so the modelled recursion never
runs out of fuel (shown below). -/
def dfsFuel (d : DAG) : Nat := (allNodes d).length + 1

mutual
/-- DFS of `validate`: three-colour cycle check over out-adjacency.
`walked` is the finished list (in finish order), `marked` the current
recursion path.  The fuel argument models the Go call stack. -/
def vwalk (d : DAG) : Nat → Nat → List Nat → List Nat → Except String (List Nat × List Nat)
  | 0, _, _, _ => .error "recursion limit exceeded"
  | fuel + 1, v, walked, marked =>
    if v ∈ walked then .ok (walked, marked)
    else if v ∈ marked then .error "cycle found"
    else
      match vwalkList d fuel (d.outAdj v) walked (v :: marked) with
      | .error e => .error e
      | .ok (w, m) => .ok (w ++ [v], m.erase v)
termination_by fuel v walked marked => (fuel, 0)

/-- Sequential DFS over a list of start vertices, threading the state. -/
def vwalkList (d : DAG) : Nat → List Nat → List Nat → List Nat → Except String (List Nat × List Nat)
  | _, [], walked, marked => .ok (walked, marked)
  | fuel, v :: vs, walked, marked =>
    match vwalk d fuel v walked marked with
    | .error e => .error e
    | .ok (w, m) => vwalkList d fuel vs w m
termination_by fuel l walked marked => (fuel, l.length + 1)
end

/-- `validate`: single root, no self-loop, DFS cycle check over every
vertex. -/
def validate (d : DAG) : Except String Unit :=
  match d.Root with
  | none => .error "no single Root found"
  | some _ =>
    if d.edges.any (fun e => decide (e.1 = e.2)) then .error "self-cycle found"
    else
      match vwalkList d (dfsFuel d) d.vertices [] [] with
      | .error e => .error e
      | .ok _ => .ok ()

/-- The adjacency `topologicalOrder` recurses over: outgoing for the
reverse order, incoming for the forward order. -/
def adj (d : DAG) (reverse : Bool) (v : Nat) : List Nat :=
  if reverse then d.outAdj v else d.inAdj v

/-- One recursion step of the topological DFS: from `p` it descends into
`q`. -/
def adjStep (d : DAG) (reverse : Bool) (p q : Nat) : Prop :=
  q ∈ adj d reverse p

/-- A duplicate-free list in which every vertex comes strictly after all
of its DFS adjacency — the correctness invariant of the post-order lists
produced by `topologicalOrder` (with `reverse = true` this is also the
finish-order invariant of `validate`'s DFS). -/
def TopoSorted (d : DAG) (reverse : Bool) (o : List Nat) : Prop :=
  o.Nodup ∧ ∀ a ∈ o, ∀ b ∈ adj d reverse a, b ∈ o ∧ o.indexOf b < o.indexOf a

mutual
/-- DFS of `topologicalOrder`: post-order append with a walked set
(`orders` doubles as the walked set: a vertex is walked exactly when it
has been appended). -/
def twalk (d : DAG) (reverse : Bool) : Nat → Nat → List Nat → Option (List Nat)
  | 0, _, _ => none
  | fuel + 1, v, orders =>
    if v ∈ orders then some orders
    else
      match twalkList d reverse fuel (adj d reverse v) orders with
      | none => none
      | some o => some (o ++ [v])
termination_by fuel v orders => (fuel, 0)

/-- Sequential post-order DFS over a list of start vertices. -/
def twalkList (d : DAG) (reverse : Bool) : Nat → List Nat → List Nat → Option (List Nat)
  | _, [], orders => some orders
  | fuel, v :: vs, orders =>
    match twalk d reverse fuel v orders with
    | none => none
    | some o => twalkList d reverse fuel vs o
termination_by fuel l orders => (fuel, l.length + 1)
end

/-- `topologicalOrder`: the (reverse) topological order of `d`; requires
`d` to be a legal DAG, diverges otherwise (modelled by `none`). -/
def topologicalOrder (d : DAG) (reverse : Bool) : Option (List Nat) :=
  twalkList d reverse (dfsFuel d) d.vertices []

/-- Errors a walk can surface: a structural validation error or the error
of the caller-supplied walk function, propagated unchanged. -/
inductive WalkError (E : Type) where
  | structural (msg : String)
  | user (e : E)
deriving DecidableEq

/-- Invoke `fn` on each vertex in order, stopping at the first error. -/
def walkList {E : Type} (fn : Nat → Except E Unit) : List Nat → Except E Unit
  | [] => .ok ()
  | v :: vs =>
    match fn v with
    | .error e => .error e
    | .ok _ => walkList fn vs

/-- The vertices `walkList` actually invokes `fn` on, in order
(instrumentation of the same iteration). -/
def walkVisits {E : Type} (fn : Nat → Except E Unit) : List Nat → List Nat
  | [] => []
  | v :: vs =>
    match fn v with
    | .error _ => [v]
    | .ok _ => v :: walkVisits fn vs

/-- `WalkTopoOrder`: validate, compute the forward topological order, then
walk it; `none` models divergence of the order computation. -/
def WalkTopoOrder {E : Type} (d : DAG) (fn : Nat → Except E Unit) :
    Option (Except (WalkError E) Unit) :=
  match validate d with
  | .error msg => some (.error (.structural msg))
  | .ok _ => (topologicalOrder d false).map (fun o => (walkList fn o).mapError .user)

/-- `WalkReverseTopoOrder`: validate, compute the reverse topological
order, then walk it. -/
def WalkReverseTopoOrder {E : Type} (d : DAG) (fn : Nat → Except E Unit) :
    Option (Except (WalkError E) Unit) :=
  match validate d with
  | .error msg => some (.error (.structural msg))
  | .ok _ => (topologicalOrder d true).map (fun o => (walkList fn o).mapError .user)

/-- The vertices `WalkTopoOrder` invokes `fn` on, in order. -/
def WalkTopoOrderVisits {E : Type} (d : DAG) (fn : Nat → Except E Unit) :
    Option (List Nat) :=
  match validate d with
  | .error _ => some []
  | .ok _ => (topologicalOrder d false).map (walkVisits fn)

/-- The vertices `WalkReverseTopoOrder` invokes `fn` on, in order. -/
def WalkReverseTopoOrderVisits {E : Type} (d : DAG) (fn : Nat → Except E Unit) :
    Option (List Nat) :=
  match validate d with
  | .error _ => some []
  | .ok _ => (topologicalOrder d true).map (walkVisits fn)

/-! ### View layer: object types, ownership rules, builders -/

/-- `viewv1.ObjectType`: an api-version string and a kind. -/
structure ObjectType where
  apiVersion : String
  kind : String
deriving DecidableEq

/-- `schema.GroupVersionKind`. -/
structure GroupVersionKind where
  group : String
  version : String
  kind : String
deriving DecidableEq

/-- Split a character list at every slash (the pieces, in order). -/
def splitSlash : List Char → List (List Char)
  | [] => [[]]
  | c :: cs =>
    if c = '/' then [] :: splitSlash cs
    else
      match splitSlash cs with
      | [] => [[c]]
      | p :: ps => (c :: p) :: ps

/-- Model of the external `schema.ParseGroupVersion`: the empty string and
a bare slash parse to the empty group/version; otherwise the string is
split at the slash, and more than one slash is an error. -/
def ParseGroupVersion (gv : String) : Except String (String × String) :=
  if gv.length = 0 ∨ gv = "/" then .ok ("", "")
  else
    match (splitSlash gv.data).map (fun l => String.mk l) with
    | [v] => .ok ("", v)
    | [g, v] => .ok (g, v)
    | _ => .error "unexpected GroupVersion string"

/-- `objectTypeToGVK` on a non-nil object type: parse the group/version
and attach the kind. -/
def objectTypeToGVKCore (t : ObjectType) : Except String GroupVersionKind :=
  match ParseGroupVersion t.apiVersion with
  | .error e => .error e
  | .ok gv => .ok ⟨gv.1, gv.2, t.kind⟩

/-- `objectTypeToGVK`: nil maps to nil, otherwise parse. -/
def objectTypeToGVK (t : Option ObjectType) : Except String (Option GroupVersionKind) :=
  match t with
  | none => .ok none
  | some ot => (objectTypeToGVKCore ot).map some

/-- `model.GVKNObjKey`: the identity of one concrete object — its resolved
type plus namespace and name. -/
structure GVKNObjKey where
  gvk : GroupVersionKind
  ns : String
  name : String
deriving DecidableEq

/-- A cached object, reduced to what the view utilities read: its resolved
type (`apiutil.GVKForObject`, modelled as intrinsic), its object key, and
an opaque payload distinguishing object values with equal identity. -/
structure KObject where
  gvk : GroupVersionKind
  ns : String
  name : String
  payload : Nat
deriving DecidableEq

/-- `getObjectRef`: the identity of an object. -/
def getObjectRef (o : KObject) : GVKNObjKey := ⟨o.gvk, o.ns, o.name⟩

/-- One entry of an ownership rule: a secondary type and a criteria for
locating the owned instances (criteria kept opaque, type `γ`). -/
structure OwnedResource (γ : Type) where
  secondary : ObjectType
  criteria : γ

/-- `OwnershipRule`: a primary type owning a list of secondary resources. -/
structure OwnershipRule (γ : Type) where
  primary : ObjectType
  ownedResources : List (OwnedResource γ)

/-- The external read boundary: `resolve` materialises a criteria into a
label selector (`parseMatchingLabels`), `query` lists objects by type and
selector (`getObjectsByGVK` against the cache). -/
structure QueryEnv (γ L : Type) where
  resolve : KObject → γ → Except String L
  query : GroupVersionKind → L → Except String (List KObject)

/-- The rule-matching loop of `getSecondaryObjectsOf` (and of
`getObjectTreeFromCache`): keep exactly the rules whose parsed primary
type equals the object's type; any parse failure aborts. -/
def matchedRulesOf {γ : Type} (objGVK : GroupVersionKind) :
    List (OwnershipRule γ) → Except String (List (OwnershipRule γ))
  | [] => .ok []
  | r :: rest =>
    match objectTypeToGVKCore r.primary with
    | .error e => .error e
    | .ok gvk =>
      match matchedRulesOf objGVK rest with
      | .error e => .error e
      | .ok rs => if gvk = objGVK then .ok (r :: rs) else .ok rs

/-- The inner loop of `getSecondaryObjectsOf` over the owned resources of
one matched rule: parse the secondary type, materialise the criteria,
query, and concatenate. -/
def collectOwned {γ L : Type} (env : QueryEnv γ L) (obj : KObject) :
    List (OwnedResource γ) → Except String (List KObject)
  | [] => .ok []
  | o :: rest =>
    match objectTypeToGVKCore o.secondary with
    | .error e => .error e
    | .ok gvk =>
      match env.resolve obj o.criteria with
      | .error e => .error e
      | .ok ml =>
        match env.query gvk ml with
        | .error e => .error e
        | .ok objs =>
          match collectOwned env obj rest with
          | .error e => .error e
          | .ok more => .ok (objs ++ more)

/-- The outer loop of `getSecondaryObjectsOf` over the matched rules. -/
def collectSecondaries {γ L : Type} (env : QueryEnv γ L) (obj : KObject) :
    List (OwnershipRule γ) → Except String (List KObject)
  | [] => .ok []
  | r :: rest =>
    match collectOwned env obj r.ownedResources with
    | .error e => .error e
    | .ok s1 =>
      match collectSecondaries env obj rest with
      | .error e => .error e
      | .ok s2 => .ok (s1 ++ s2)

/-- `getSecondaryObjectsOf`: select the rules matching the object's
resolved type, then query every owned resource of every matched rule. -/
def getSecondaryObjectsOf {γ L : Type} (env : QueryEnv γ L) (obj : KObject)
    (rules : List (OwnershipRule γ)) : Except String (List KObject) :=
  match matchedRulesOf obj.gvk rules with
  | .error e => .error e
  | .ok matched => collectSecondaries env obj matched

/-- `viewv1.ObjectTreeNode`: a primary reference with child subtrees. -/
inductive ObjectTreeNode where
  | node (primary : GVKNObjKey) (secondaries : List ObjectTreeNode)

mutual
/-- All primary identities occurring in a tree, root first. -/
def treeIds : ObjectTreeNode → List GVKNObjKey
  | .node p ts => p :: forestIds ts

/-- All primary identities occurring in a forest. -/
def forestIds : List ObjectTreeNode → List GVKNObjKey
  | [] => []
  | t :: ts => treeIds t ++ forestIds ts
end

mutual
/-- The recursion of `getObjectTreeFromCache` for a non-nil primary: find
the secondaries, build a subtree per secondary.  Fuel models the Go
recursion depth; `none` models nontermination on cyclic rule sets. -/
def buildTree {γ L : Type} (env : QueryEnv γ L) (rules : List (OwnershipRule γ)) :
    Nat → KObject → Option (Except String ObjectTreeNode)
  | 0, _ => none
  | fuel + 1, primary =>
    match getSecondaryObjectsOf env primary rules with
    | .error e => some (.error e)
    | .ok secs =>
      match buildForest env rules fuel secs with
      | none => none
      | some (.error e) => some (.error e)
      | some (.ok ts) => some (.ok (.node (getObjectRef primary) ts))
termination_by fuel primary => (fuel, 0)

/-- Build one subtree per secondary, left to right, aborting on the first
error. -/
def buildForest {γ L : Type} (env : QueryEnv γ L) (rules : List (OwnershipRule γ)) :
    Nat → List KObject → Option (Except String (List ObjectTreeNode))
  | _, [] => some (.ok [])
  | fuel, o :: os =>
    match buildTree env rules fuel o with
    | none => none
    | some (.error e) => some (.error e)
    | some (.ok t) =>
      match buildForest env rules fuel os with
      | none => none
      | some (.error e) => some (.error e)
      | some (.ok ts) => some (.ok (t :: ts))
termination_by fuel l => (fuel, l.length + 1)
end

/-- `getObjectTreeFromCache`: a nil primary yields a nil tree. -/
def getObjectTreeFromCache {γ L : Type} (env : QueryEnv γ L)
    (rules : List (OwnershipRule γ)) (fuel : Nat) (primary : Option KObject) :
    Option (Except String (Option ObjectTreeNode)) :=
  match primary with
  | none => some (.ok none)
  | some p => (buildTree env rules fuel p).map (fun r => r.map some)

/-- The queue loop of `getObjectsFromCache`: pop the front item, record
its identity in the set and the map, find its secondaries, push all of
them at the back.  Fuel bounds the number of iterations; `none` models
nontermination. -/
def collectLoop {γ L : Type} (env : QueryEnv γ L) (rules : List (OwnershipRule γ)) :
    Nat → List KObject → Finset GVKNObjKey → (GVKNObjKey → Option KObject) →
    Option (Except String (Finset GVKNObjKey × (GVKNObjKey → Option KObject)))
  | _, [], s, m => some (.ok (s, m))
  | 0, _ :: _, _, _ => none
  | fuel + 1, obj :: rest, s, m =>
    match getSecondaryObjectsOf env obj rules with
    | .error e => some (.error e)
    | .ok secs =>
      collectLoop env rules fuel (rest ++ secs) (insert (getObjectRef obj) s)
        (fun k => if k = getObjectRef obj then some obj else m k)

/-- `getObjectsFromCache`: run the queue loop from the root with empty
accumulators. -/
def getObjectsFromCache {γ L : Type} (env : QueryEnv γ L)
    (rules : List (OwnershipRule γ)) (fuel : Nat) (root : KObject) :
    Option (Except String (Finset GVKNObjKey × (GVKNObjKey → Option KObject))) :=
  collectLoop env rules fuel [root] ∅ (fun _ => none)

/-- The identities the queue loop pops, in pop order (instrumentation of
`getObjectsFromCache` used to state visit-count properties; on a
secondary-lookup error the loop stops right after the failing pop). -/
def collectVisits {γ L : Type} (env : QueryEnv γ L) (rules : List (OwnershipRule γ)) :
    Nat → List KObject → Option (List GVKNObjKey)
  | _, [] => some []
  | 0, _ :: _ => none
  | fuel + 1, obj :: rest =>
    match getSecondaryObjectsOf env obj rules with
    | .error _ => some [getObjectRef obj]
    | .ok secs =>
      match collectVisits env rules fuel (rest ++ secs) with
      | none => none
      | some ks => some (getObjectRef obj :: ks)

/-- One ownership step: `y` is among the secondaries found for `x`. -/
def secStep {γ L : Type} (env : QueryEnv γ L) (rules : List (OwnershipRule γ))
    (x y : KObject) : Prop :=
  ∃ l, getSecondaryObjectsOf env x rules = .ok l ∧ y ∈ l

/-! ### Concrete fixtures for the view-layer witnesses -/

def gvkCluster : GroupVersionKind := ⟨"apps", "v1", "Cluster"⟩

def gvkPod : GroupVersionKind := ⟨"", "v1", "Pod"⟩

def typeCluster : ObjectType := ⟨"apps/v1", "Cluster"⟩

def typePod : ObjectType := ⟨"v1", "Pod"⟩

def objCluster : KObject := ⟨gvkCluster, "ns", "c", 0⟩

def objPod : KObject := ⟨gvkPod, "ns", "p", 0⟩

/-- A query boundary with a single Pod: criteria always resolve, and a
query for the Pod type returns it. -/
def envPod : QueryEnv Unit Unit :=
  ⟨fun _ _ => .ok (), fun g _ => if g = gvkPod then .ok [objPod] else .ok []⟩

/-- Two identical Cluster-owns-Pod rules: the Pod is matched via two
paths. -/
def rulesDup : List (OwnershipRule Unit) :=
  [⟨typeCluster, [⟨typePod, ()⟩]⟩, ⟨typeCluster, [⟨typePod, ()⟩]⟩]

/-- A self-referential Pod-owns-Pod rule set: the ownership graph is a
cycle. -/
def rulesCyc : List (OwnershipRule Unit) := [⟨typePod, [⟨typePod, ()⟩]⟩]

/-- A single Cluster-owns-Pod rule. -/
def rulesOne : List (OwnershipRule Unit) := [⟨typeCluster, [⟨typePod, ()⟩]⟩]

end KB

namespace KB

/-! ## Claims C3, C4, C5, C10: GraphStore mutation primitives -/

/-- C3: calling `Connect(A,B)` twice on a DAG that does not yet store an
edge with endpoint pair `(A,B)` leaves exactly one such stored edge — the
second call succeeds without creating a duplicate — and a `nil` argument
makes `Connect` fail with `false` without mutating the graph. -/
theorem C3_connect_dedups (d : DAG) (a b : Nat)
    (hfresh : (a, b) ∉ d.edges) :
    (((d.Connect (some a) (some b)).1.Connect (some a) (some b)).1.edges.filter
        (fun k => decide (k = (a, b)))).length = 1 ∧
    (d.Connect (some a) (some b)).2 = true ∧
    ((d.Connect (some a) (some b)).1.Connect (some a) (some b)).2 = true ∧
    (∀ t, d.Connect none t = (d, false)) ∧
    (∀ f, d.Connect f none = (d, false)) := by
  have hany : d.edges.any (fun k => decide (k.1 = a ∧ k.2 = b)) = false := by
    rw [List.any_eq_false]
    intro k hk
    simp only [decide_eq_true_eq, not_and]
    intro h1 h2
    exact hfresh (by
      have : k = (a, b) := Prod.ext h1 h2
      simpa [this] using hk)
  have hstep1 : d.Connect (some a) (some b) =
      ({ d with edges := d.edges ++ [(a, b)] }, true) := by
    simp only [DAG.Connect]
    rw [hany]
    simp
  have hany2 : ((d.edges ++ [(a, b)]).any (fun k => decide (k.1 = a ∧ k.2 = b))) = true := by
    rw [List.any_eq_true]
    exact ⟨(a, b), by simp⟩
  have hstep2 : ({ d with edges := d.edges ++ [(a, b)]} : DAG).Connect (some a) (some b) =
      ({ d with edges := d.edges ++ [(a, b)] }, true) := by
    simp only [DAG.Connect]
    rw [hany2]
    simp
  refine ⟨?_, ?_, ?_, ?_, ?_⟩
  · rw [hstep1]
    simp only [hstep2]
    have hnone : d.edges.filter (fun k => decide (k = (a, b))) = [] := by
      rw [List.filter_eq_nil_iff]
      intro k hk
      simp only [decide_eq_true_eq]
      intro h; exact hfresh (h ▸ hk)
    simp [List.filter_append, hnone]
  · rw [hstep1]
  · rw [hstep1]; simp only [hstep2]
  · intro t; cases t <;> rfl
  · intro f; cases f <;> rfl

/-- Witness for C3 at a concrete graph. -/
theorem C3_connect_dedups_witness :
    (1, 2) ∉ NewDAG.edges ∧
    (((NewDAG.Connect (some 1) (some 2)).1.Connect (some 1) (some 2)).1.edges.filter
        (fun k => decide (k = (1, 2)))).length = 1 := by
  refine ⟨by decide, ?_⟩
  exact (C3_connect_dedups NewDAG 1 2 (by decide)).1

/-- C4: after `RemoveVertex(v)` no stored edge has `v` as an endpoint and
`v` is no longer a vertex; `RemoveVertex(nil)` is a no-op returning `true`. -/
theorem C4_remove_vertex (d : DAG) (v : Nat) :
    (∀ e ∈ (d.RemoveVertex (some v)).1.edges, e.1 ≠ v ∧ e.2 ≠ v) ∧
    v ∉ (d.RemoveVertex (some v)).1.vertices ∧
    (d.RemoveVertex (some v)).2 = true ∧
    d.RemoveVertex none = (d, true) := by
  refine ⟨?_, ?_, rfl, rfl⟩
  · intro e he
    simp only [DAG.RemoveVertex, List.mem_filter, decide_eq_true_eq] at he
    exact ⟨fun h => he.2 (Or.inl h), fun h => he.2 (Or.inr h)⟩
  · intro hv
    simp [DAG.RemoveVertex, List.mem_filter] at hv

/-- Witness for C4 at a concrete graph. -/
theorem C4_remove_vertex_witness :
    (∀ e ∈ (((⟨[1, 2], [(1, 2), (2, 1)]⟩ : DAG)).RemoveVertex (some 2)).1.edges,
      e.1 ≠ 2 ∧ e.2 ≠ 2) ∧
    2 ∉ (((⟨[1, 2], [(1, 2), (2, 1)]⟩ : DAG)).RemoveVertex (some 2)).1.vertices :=
  ⟨(C4_remove_vertex ⟨[1, 2], [(1, 2), (2, 1)]⟩ 2).1,
   (C4_remove_vertex ⟨[1, 2], [(1, 2), (2, 1)]⟩ 2).2.1⟩

/-- C5: `Root()` returns the unique zero-in-degree vertex when exactly one
exists, `nil` on an empty vertex set, `nil` when no vertex has zero
in-degree, and `nil` when two distinct vertices have zero in-degree. -/
theorem C5_root (d : DAG) :
    (d.vertices.Nodup → ∀ r ∈ d.vertices, d.inAdj r = [] →
      (∀ w ∈ d.vertices, d.inAdj w = [] → w = r) → d.Root = some r) ∧
    (d.vertices = [] → d.Root = none) ∧
    ((∀ w ∈ d.vertices, d.inAdj w ≠ []) → d.Root = none) ∧
    (∀ a b, a ∈ d.vertices → b ∈ d.vertices → a ≠ b →
      d.inAdj a = [] → d.inAdj b = [] → d.Root = none) := by
  refine ⟨?_, ?_, ?_, ?_⟩
  · intro hnd r hr hra huniq
    have hfil : d.vertices.filter (fun n => decide ((d.inAdj n).length = 0)) = [r] := by
      have hmem : r ∈ d.vertices.filter (fun n => decide ((d.inAdj n).length = 0)) := by
        rw [List.mem_filter]
        exact ⟨hr, by simp [hra]⟩
      have hall : ∀ x ∈ d.vertices.filter (fun n => decide ((d.inAdj n).length = 0)), x = r := by
        intro x hx
        rw [List.mem_filter] at hx
        refine huniq x hx.1 ?_
        have := hx.2
        simp only [decide_eq_true_eq, List.length_eq_zero] at this
        exact this
      have hndf : (d.vertices.filter (fun n => decide ((d.inAdj n).length = 0))).Nodup :=
        hnd.filter _
      cases hfil : d.vertices.filter (fun n => decide ((d.inAdj n).length = 0)) with
      | nil => rw [hfil] at hmem; cases hmem
      | cons x xs =>
        rw [hfil] at hmem hall hndf
        have hx : x = r := hall x (by simp)
        cases xs with
        | nil => simp [hx]
        | cons y ys =>
          have hy : y = r := hall y (by simp)
          exfalso
          have : x ≠ y := by
            intro h
            exact (List.nodup_cons.mp hndf).1 (by simp [h])
          exact this (hx.trans hy.symm)
    unfold DAG.Root
    rw [hfil]
  · intro h; simp [DAG.Root, h]
  · intro h
    have hfil : d.vertices.filter (fun n => decide ((d.inAdj n).length = 0)) = [] := by
      rw [List.filter_eq_nil_iff]
      intro w hw
      simp only [decide_eq_true_eq, List.length_eq_zero]
      exact h w hw
    unfold DAG.Root
    rw [hfil]
  · intro a b ha hb hab hia hib
    have hma : a ∈ d.vertices.filter (fun n => decide ((d.inAdj n).length = 0)) := by
      rw [List.mem_filter]; exact ⟨ha, by simp [hia]⟩
    have hmb : b ∈ d.vertices.filter (fun n => decide ((d.inAdj n).length = 0)) := by
      rw [List.mem_filter]; exact ⟨hb, by simp [hib]⟩
    unfold DAG.Root
    cases hfil : d.vertices.filter (fun n => decide ((d.inAdj n).length = 0)) with
    | nil => rfl
    | cons x xs =>
      cases xs with
      | nil =>
        exfalso
        rw [hfil] at hma hmb
        simp only [List.mem_singleton] at hma hmb
        exact hab (hma.trans hmb.symm)
      | cons y ys => rfl

/-- Witness for C5 at a concrete graph: vertices 1,2 with edge 1→2. -/
theorem C5_root_witness :
    (⟨[1, 2], [(1, 2)]⟩ : DAG).Root = some 1 := by
  exact (C5_root ⟨[1, 2], [(1, 2)]⟩).1 (by decide) 1 (by decide) (by decide)
    (by decide)

/-- C10: `Connect` and `AddEdge` never touch the vertex set; after a
successful `Connect(A,B)` on a graph containing neither `A` nor `B`,
`Vertices()` still omits both while the new edge is stored. -/
theorem C10_connect_frame (d : DAG) (a b : Nat)
    (ha : a ∉ d.vertices) (hb : b ∉ d.vertices) :
    (∀ f t, (d.Connect f t).1.vertices = d.vertices) ∧
    (∀ e, (d.AddEdge e).1.vertices = d.vertices) ∧
    (d.Connect (some a) (some b)).2 = true ∧
    a ∉ (d.Connect (some a) (some b)).1.Vertices ∧
    b ∉ (d.Connect (some a) (some b)).1.Vertices ∧
    (a, b) ∈ (d.Connect (some a) (some b)).1.edges := by
  have hv : ∀ f t, (d.Connect f t).1.vertices = d.vertices := by
    intro f t
    match f, t with
    | some x, some y =>
      simp only [DAG.Connect]
      split <;> rfl
    | none, _ => rfl
    | some _, none => rfl
  have he : ∀ e, (d.AddEdge e).1.vertices = d.vertices := by
    intro e
    match e with
    | (some x, some y) =>
      simp only [DAG.AddEdge]
      split <;> rfl
    | (none, _) => rfl
    | (some _, none) => rfl
  refine ⟨hv, he, ?_, ?_, ?_, ?_⟩
  · simp only [DAG.Connect]; split <;> rfl
  · rw [DAG.Vertices, hv]; exact ha
  · rw [DAG.Vertices, hv]; exact hb
  · simp only [DAG.Connect]
    split
    · next h =>
      rw [List.any_eq_true] at h
      obtain ⟨k, hk, hkp⟩ := h
      simp only [decide_eq_true_eq] at hkp
      have : k = (a, b) := Prod.ext hkp.1 hkp.2
      simpa [this] using hk
    · simp

/-- Witness for C10 at a concrete graph. -/
theorem C10_connect_frame_witness :
    3 ∉ NewDAG.vertices ∧ 4 ∉ NewDAG.vertices ∧
    (3, 4) ∈ (NewDAG.Connect (some 3) (some 4)).1.edges := by
  refine ⟨by decide, by decide, ?_⟩
  exact (C10_connect_frame NewDAG 3 4 (by decide) (by decide)).2.2.2.2.2

end KB

namespace KB

/-! ## Adjacency and reachability basics -/

theorem mem_outAdj (d : DAG) (u v : Nat) : v ∈ d.outAdj u ↔ (u, v) ∈ d.edges := by
  simp only [DAG.outAdj, List.mem_map, List.mem_filter, decide_eq_true_eq]
  constructor
  · rintro ⟨e, ⟨he, h1⟩, h2⟩
    have : e = (u, v) := Prod.ext h1 h2
    exact this ▸ he
  · intro h
    exact ⟨(u, v), ⟨h, rfl⟩, rfl⟩

theorem mem_inAdj (d : DAG) (u v : Nat) : u ∈ d.inAdj v ↔ (u, v) ∈ d.edges := by
  simp only [DAG.inAdj, List.mem_map, List.mem_filter, decide_eq_true_eq]
  constructor
  · rintro ⟨e, ⟨he, h2⟩, h1⟩
    have : e = (u, v) := Prod.ext h1 h2
    exact this ▸ he
  · intro h
    exact ⟨(u, v), ⟨h, rfl⟩, rfl⟩

theorem adjStep_iff (d : DAG) (reverse : Bool) (p q : Nat) :
    adjStep d reverse p q ↔ (if reverse then (p, q) ∈ d.edges else (q, p) ∈ d.edges) := by
  cases reverse with
  | false => simp [adjStep, adj, mem_inAdj]
  | true => simp [adjStep, adj, mem_outAdj]

/-- The DFS step relation has no cycles when the DAG is acyclic. -/
theorem acyclic_adjStep (d : DAG) (reverse : Bool) (hac : Acyclic d) :
    ∀ v, ¬ Relation.TransGen (adjStep d reverse) v v := by
  intro v hv
  cases reverse with
  | false =>
    have hswap : Relation.TransGen (Function.swap (Rel d)) v v := by
      refine Relation.TransGen.mono ?_ hv
      intro a b hab
      exact (mem_inAdj d b a).mp hab
    exact hac v (Relation.transGen_swap.mp hswap)
  | true =>
    refine hac v (Relation.TransGen.mono ?_ hv)
    intro a b hab
    exact (mem_outAdj d a b).mp hab

/-- Any vertex reachable by DFS steps from a stored vertex is itself a
stored vertex, provided all edges stay inside the vertex set. -/
theorem adjStep_reach_closed (d : DAG) (reverse : Bool) (hcl : EdgesClosed d)
    {u x : Nat} (hu : u ∈ d.vertices)
    (h : Relation.ReflTransGen (adjStep d reverse) u x) : x ∈ d.vertices := by
  induction h with
  | refl => exact hu
  | tail _ hstep ih =>
    rename_i b c
    rw [adjStep_iff] at hstep
    cases reverse with
    | false => exact (hcl _ (by simpa using hstep)).1
    | true => exact (hcl _ (by simpa using hstep)).2

/-- Any vertex reachable by DFS steps lands in `allNodes`. -/
theorem adjStep_reach_allNodes (d : DAG) (reverse : Bool)
    {u x : Nat} (hu : u ∈ allNodes d)
    (h : Relation.ReflTransGen (adjStep d reverse) u x) : x ∈ allNodes d := by
  induction h with
  | refl => exact hu
  | tail hab hstep ih =>
    rename_i b c
    rw [adjStep_iff] at hstep
    unfold allNodes
    cases reverse with
    | false =>
      simp only [if_neg Bool.false_ne_true] at hstep
      refine List.mem_append.mpr (Or.inl (List.mem_append.mpr (Or.inr ?_)))
      exact List.mem_map.mpr ⟨(c, b), by simpa using hstep, rfl⟩
    | true =>
      simp only [if_pos rfl] at hstep
      refine List.mem_append.mpr (Or.inr ?_)
      exact List.mem_map.mpr ⟨(b, c), by simpa using hstep, rfl⟩

/-- Everything reachable along stored edges from a stored vertex lands in
`allNodes`. -/
theorem rel_reach_allNodes (d : DAG)
    {u x : Nat} (hu : u ∈ allNodes d)
    (h : Relation.ReflTransGen (Rel d) u x) : x ∈ allNodes d := by
  induction h with
  | refl => exact hu
  | tail hab hstep ih =>
    rename_i b c
    unfold allNodes
    refine List.mem_append.mpr (Or.inr ?_)
    exact List.mem_map.mpr ⟨(b, c), hstep, rfl⟩

theorem vertices_subset_allNodes (d : DAG) {v : Nat} (hv : v ∈ d.vertices) :
    v ∈ allNodes d := by
  unfold allNodes
  exact List.mem_append.mpr (Or.inl (List.mem_append.mpr (Or.inl hv)))

/-! ## Post-conditions of the `topologicalOrder` DFS -/

/-- Successful `twalk`/`twalkList` runs only append: the result extends
the input, the walked vertex ends up in the result, and every appended
vertex is DFS-reachable from a start vertex. -/
theorem twalk_post (d : DAG) (reverse : Bool) : ∀ fuel : Nat,
    (∀ v o o', twalk d reverse fuel v o = some o' →
      v ∈ o' ∧ ∃ t, o' = o ++ t ∧
        ∀ x ∈ t, Relation.ReflTransGen (adjStep d reverse) v x) ∧
    (∀ l o o', twalkList d reverse fuel l o = some o' →
      (∀ u ∈ l, u ∈ o') ∧ ∃ t, o' = o ++ t ∧
        ∀ x ∈ t, ∃ u ∈ l, Relation.ReflTransGen (adjStep d reverse) u x) := by
  have hQ : ∀ fuel : Nat,
      (∀ v o o', twalk d reverse fuel v o = some o' →
        v ∈ o' ∧ ∃ t, o' = o ++ t ∧
          ∀ x ∈ t, Relation.ReflTransGen (adjStep d reverse) v x) →
      (∀ l o o', twalkList d reverse fuel l o = some o' →
        (∀ u ∈ l, u ∈ o') ∧ ∃ t, o' = o ++ t ∧
          ∀ x ∈ t, ∃ u ∈ l, Relation.ReflTransGen (adjStep d reverse) u x) := by
    intro fuel hP l
    induction l with
    | nil =>
      intro o o' h
      simp only [twalkList] at h
      refine ⟨by simp, [], ?_, by simp⟩
      simp [← Option.some_inj.mp h]
    | cons v vs ih =>
      intro o o' h
      simp only [twalkList] at h
      cases hw : twalk d reverse fuel v o with
      | none => rw [hw] at h; cases h
      | some o1 =>
        rw [hw] at h
        obtain ⟨hv1, t1, ht1, hd1⟩ := hP v o o1 hw
        obtain ⟨hcov, t2, ht2, hd2⟩ := ih o1 o' h
        refine ⟨?_, t1 ++ t2, by rw [ht2, ht1, List.append_assoc], ?_⟩
        · intro u hu
          rcases List.mem_cons.mp hu with rfl | hu
          · rw [ht2]; exact List.mem_append.mpr (Or.inl hv1)
          · exact hcov u hu
        · intro x hx
          rcases List.mem_append.mp hx with hx | hx
          · exact ⟨v, List.mem_cons_self v vs, hd1 x hx⟩
          · obtain ⟨u, hu, hdu⟩ := hd2 x hx
            exact ⟨u, List.mem_cons_of_mem v hu, hdu⟩
  intro fuel
  induction fuel with
  | zero =>
    constructor
    · intro v o o' h; simp [twalk] at h
    · exact hQ 0 (by intro v o o' h; simp [twalk] at h)
  | succ n ih =>
    have hP : ∀ v o o', twalk d reverse (n + 1) v o = some o' →
        v ∈ o' ∧ ∃ t, o' = o ++ t ∧
          ∀ x ∈ t, Relation.ReflTransGen (adjStep d reverse) v x := by
      intro v o o' h
      simp only [twalk] at h
      by_cases hvo : v ∈ o
      · rw [if_pos hvo] at h
        refine ⟨?_, [], by simp [← Option.some_inj.mp h], by simp⟩
        rw [← Option.some_inj.mp h]; exact hvo
      · rw [if_neg hvo] at h
        cases hl : twalkList d reverse n (adj d reverse v) o with
        | none => rw [hl] at h; cases h
        | some o1 =>
          rw [hl] at h
          obtain ⟨hcov, t1, ht1, hd1⟩ := (hQ n ih.1) (adj d reverse v) o o1 hl
          have ho' : o' = o1 ++ [v] := (Option.some_inj.mp h).symm
          refine ⟨by rw [ho']; simp, t1 ++ [v], by rw [ho', ht1, List.append_assoc], ?_⟩
          intro x hx
          rcases List.mem_append.mp hx with hx | hx
          · obtain ⟨u, hu, hdu⟩ := hd1 x hx
            exact Relation.ReflTransGen.head hu hdu
          · rw [List.mem_singleton.mp hx]
    exact ⟨hP, hQ (n + 1) hP⟩

end KB

namespace KB

/-- Successful `twalk`/`twalkList` runs preserve the topological-sort
invariant, on acyclic step relations. -/
theorem twalk_inv (d : DAG) (reverse : Bool)
    (hac : ∀ v, ¬ Relation.TransGen (adjStep d reverse) v v) : ∀ fuel : Nat,
    (∀ v o o', twalk d reverse fuel v o = some o' →
      TopoSorted d reverse o → TopoSorted d reverse o') ∧
    (∀ l o o', twalkList d reverse fuel l o = some o' →
      TopoSorted d reverse o → TopoSorted d reverse o') := by
  have hQ : ∀ fuel : Nat,
      (∀ v o o', twalk d reverse fuel v o = some o' →
        TopoSorted d reverse o → TopoSorted d reverse o') →
      (∀ l o o', twalkList d reverse fuel l o = some o' →
        TopoSorted d reverse o → TopoSorted d reverse o') := by
    intro fuel hP l
    induction l with
    | nil =>
      intro o o' h hinv
      simp only [twalkList] at h
      rw [← Option.some_inj.mp h]; exact hinv
    | cons v vs ih =>
      intro o o' h hinv
      simp only [twalkList] at h
      cases hw : twalk d reverse fuel v o with
      | none => rw [hw] at h; cases h
      | some o1 =>
        rw [hw] at h
        exact ih o1 o' h (hP v o o1 hw hinv)
  intro fuel
  induction fuel with
  | zero =>
    constructor
    · intro v o o' h; simp [twalk] at h
    · exact hQ 0 (by intro v o o' h; simp [twalk] at h)
  | succ n ih =>
    have hP : ∀ v o o', twalk d reverse (n + 1) v o = some o' →
        TopoSorted d reverse o → TopoSorted d reverse o' := by
      intro v o o' h hinv
      simp only [twalk] at h
      by_cases hvo : v ∈ o
      · rw [if_pos hvo] at h
        rw [← Option.some_inj.mp h]; exact hinv
      · rw [if_neg hvo] at h
        cases hl : twalkList d reverse n (adj d reverse v) o with
        | none => rw [hl] at h; cases h
        | some o1 =>
          rw [hl] at h
          have ho' : o' = o1 ++ [v] := (Option.some_inj.mp h).symm
          have hinv1 : TopoSorted d reverse o1 := (hQ n ih.1) _ o o1 hl hinv
          obtain ⟨hcov, t1, ht1, hd1⟩ := (twalk_post d reverse n).2 _ o o1 hl
          have hvno1 : v ∉ o1 := by
            rw [ht1]
            intro hmem
            rcases List.mem_append.mp hmem with hx | hx
            · exact hvo hx
            · obtain ⟨u, hu, hdu⟩ := hd1 v hx
              exact hac v (Relation.TransGen.head' hu hdu)
          subst ho'
          constructor
          · rw [List.nodup_append]
            refine ⟨hinv1.1, List.nodup_singleton v, ?_⟩
            intro a ha hav
            rw [List.mem_singleton.mp hav] at ha
            exact hvno1 ha
          · intro a ha b hb
            rcases List.mem_append.mp ha with ha1 | hav
            · obtain ⟨hbo1, hidx⟩ := hinv1.2 a ha1 b hb
              refine ⟨List.mem_append.mpr (Or.inl hbo1), ?_⟩
              rw [List.indexOf_append_of_mem hbo1, List.indexOf_append_of_mem ha1]
              exact hidx
            · rw [List.mem_singleton.mp hav] at hb ⊢
              have hbo1 : b ∈ o1 := hcov b hb
              refine ⟨List.mem_append.mpr (Or.inl hbo1), ?_⟩
              rw [List.indexOf_append_of_mem hbo1,
                List.indexOf_append_of_not_mem hvno1]
              simp only [List.indexOf_cons_self, Nat.add_zero]
              exact List.indexOf_lt_length.mpr hbo1
    exact ⟨hP, hQ (n + 1) hP⟩

/-- With enough fuel — more than the number of handles reachable from the
start vertex — the topological DFS never runs out, on acyclic step
relations. -/
theorem twalk_total (d : DAG) (reverse : Bool)
    (hac : ∀ v, ¬ Relation.TransGen (adjStep d reverse) v v) : ∀ fuel : Nat,
    (∀ v o (S : Finset Nat),
      (∀ w, Relation.ReflTransGen (adjStep d reverse) v w → w ∈ S) →
      S.card < fuel → twalk d reverse fuel v o ≠ none) ∧
    (∀ l o (S : Finset Nat),
      (∀ u ∈ l, ∀ w, Relation.ReflTransGen (adjStep d reverse) u w → w ∈ S) →
      S.card < fuel → twalkList d reverse fuel l o ≠ none) := by
  have hQ : ∀ fuel : Nat,
      (∀ v o (S : Finset Nat),
        (∀ w, Relation.ReflTransGen (adjStep d reverse) v w → w ∈ S) →
        S.card < fuel → twalk d reverse fuel v o ≠ none) →
      (∀ l o (S : Finset Nat),
        (∀ u ∈ l, ∀ w, Relation.ReflTransGen (adjStep d reverse) u w → w ∈ S) →
        S.card < fuel → twalkList d reverse fuel l o ≠ none) := by
    intro fuel hP l
    induction l with
    | nil => intro o S hS hc; simp [twalkList]
    | cons v vs ih =>
      intro o S hS hc
      simp only [twalkList]
      cases hw : twalk d reverse fuel v o with
      | none =>
        exact absurd hw (hP v o S (hS v (List.mem_cons_self v vs)) hc)
      | some o1 =>
        exact ih o1 S (fun u hu => hS u (List.mem_cons_of_mem v hu)) hc
  intro fuel
  induction fuel with
  | zero =>
    constructor
    · intro v o S hS hc; exact absurd hc (Nat.not_lt_zero _)
    · exact hQ 0 (by intro v o S hS hc; exact absurd hc (Nat.not_lt_zero _))
  | succ n ih =>
    have hP : ∀ v o (S : Finset Nat),
        (∀ w, Relation.ReflTransGen (adjStep d reverse) v w → w ∈ S) →
        S.card < n + 1 → twalk d reverse (n + 1) v o ≠ none := by
      intro v o S hS hc
      simp only [twalk]
      by_cases hvo : v ∈ o
      · simp [hvo]
      · rw [if_neg hvo]
        have hvS : v ∈ S := hS v Relation.ReflTransGen.refl
        have hrec : twalkList d reverse n (adj d reverse v) o ≠ none := by
          refine (hQ n ih.1) (adj d reverse v) o (S.erase v) ?_ ?_
          · intro u hu w hw
            refine Finset.mem_erase.mpr ⟨?_, hS w (Relation.ReflTransGen.head hu hw)⟩
            intro hwv
            rw [hwv] at hw
            exact hac v (Relation.TransGen.head' hu hw)
          · have h1 : 1 ≤ S.card := Finset.card_pos.mpr ⟨v, hvS⟩
            rw [Finset.card_erase_of_mem hvS]
            omega
        cases hl : twalkList d reverse n (adj d reverse v) o with
        | none => exact absurd hl hrec
        | some o1 => simp
    exact ⟨hP, hQ (n + 1) hP⟩

/-- On an acyclic graph whose edges stay inside the vertex set,
`topologicalOrder` terminates and returns a duplicate-free, adjacency-
respecting order containing exactly the vertices. -/
theorem topologicalOrder_spec (d : DAG) (reverse : Bool)
    (hac : Acyclic d) (hcl : EdgesClosed d) :
    ∃ o, topologicalOrder d reverse = some o ∧ TopoSorted d reverse o ∧
      (∀ v, v ∈ o ↔ v ∈ d.vertices) := by
  have hac' := acyclic_adjStep d reverse hac
  have hS : ∀ u ∈ d.vertices, ∀ w,
      Relation.ReflTransGen (adjStep d reverse) u w → w ∈ (allNodes d).toFinset := by
    intro u hu w hw
    exact List.mem_toFinset.mpr
      (adjStep_reach_allNodes d reverse (vertices_subset_allNodes d hu) hw)
  have hcard : (allNodes d).toFinset.card < dfsFuel d :=
    Nat.lt_succ_of_le (List.toFinset_card_le _)
  have htot := (twalk_total d reverse hac' (dfsFuel d)).2 d.vertices []
    (allNodes d).toFinset hS hcard
  cases h : twalkList d reverse (dfsFuel d) d.vertices [] with
  | none => exact absurd h htot
  | some o =>
    refine ⟨o, h, ?_, ?_⟩
    · refine (twalk_inv d reverse hac' (dfsFuel d)).2 d.vertices [] o h ?_
      exact ⟨List.nodup_nil, by simp⟩
    · obtain ⟨hcov, t, ht, hd⟩ := (twalk_post d reverse (dfsFuel d)).2 d.vertices [] o h
      intro v
      constructor
      · intro hv
        rw [ht, List.nil_append] at hv
        obtain ⟨u, hu, hdu⟩ := hd v hv
        exact adjStep_reach_closed d reverse hcl hu hdu
      · intro hv
        exact hcov v hv

end KB

namespace KB

theorem adj_true (d : DAG) (a : Nat) : adj d true a = d.outAdj a := rfl

theorem adj_false (d : DAG) (a : Nat) : adj d false a = d.inAdj a := rfl

/-! ## Post-conditions of the `validate` DFS -/

/-- Successful `vwalk`/`vwalkList` runs restore the marked set, only
append to the walked list, and never append anything marked. -/
theorem vwalk_post (d : DAG) : ∀ fuel : Nat,
    (∀ v w m w' m', vwalk d fuel v w m = .ok (w', m') →
      m' = m ∧ v ∈ w' ∧ ∃ t, w' = w ++ t ∧ ∀ x ∈ t, x ∉ m) ∧
    (∀ l w m w' m', vwalkList d fuel l w m = .ok (w', m') →
      m' = m ∧ (∀ u ∈ l, u ∈ w') ∧ ∃ t, w' = w ++ t ∧ ∀ x ∈ t, x ∉ m) := by
  have hQ : ∀ fuel : Nat,
      (∀ v w m w' m', vwalk d fuel v w m = .ok (w', m') →
        m' = m ∧ v ∈ w' ∧ ∃ t, w' = w ++ t ∧ ∀ x ∈ t, x ∉ m) →
      (∀ l w m w' m', vwalkList d fuel l w m = .ok (w', m') →
        m' = m ∧ (∀ u ∈ l, u ∈ w') ∧ ∃ t, w' = w ++ t ∧ ∀ x ∈ t, x ∉ m) := by
    intro fuel hP l
    induction l with
    | nil =>
      intro w m w' m' h
      simp only [vwalkList] at h
      injection h with h1
      injection h1 with hw hm
      subst hw; subst hm
      exact ⟨rfl, by simp, [], by simp, by simp⟩
    | cons v vs ih =>
      intro w m w' m' h
      simp only [vwalkList] at h
      cases hw : vwalk d fuel v w m with
      | error e => rw [hw] at h; cases h
      | ok p =>
        rw [hw] at h
        obtain ⟨hm1, hv1, t1, ht1, hd1⟩ := hP v w m p.1 p.2 (by rw [hw])
        obtain ⟨hm2, hcov, t2, ht2, hd2⟩ := ih p.1 p.2 w' m' h
        subst hm1
        refine ⟨hm2, ?_, t1 ++ t2, ?_, ?_⟩
        · intro u hu
          rcases List.mem_cons.mp hu with rfl | hu
          · rw [ht2]; exact List.mem_append.mpr (Or.inl hv1)
          · exact hcov u hu
        · rw [ht2, ht1, List.append_assoc]
        · intro x hx
          rcases List.mem_append.mp hx with hx | hx
          · exact hd1 x hx
          · exact hd2 x hx
  intro fuel
  induction fuel with
  | zero =>
    constructor
    · intro v w m w' m' h; simp [vwalk] at h
    · exact hQ 0 (by intro v w m w' m' h; simp [vwalk] at h)
  | succ n ih =>
    have hP : ∀ v w m w' m', vwalk d (n + 1) v w m = .ok (w', m') →
        m' = m ∧ v ∈ w' ∧ ∃ t, w' = w ++ t ∧ ∀ x ∈ t, x ∉ m := by
      intro v w m w' m' h
      simp only [vwalk] at h
      by_cases hvw : v ∈ w
      · rw [if_pos hvw] at h
        injection h with h1
        injection h1 with hw hm
        subst hw; subst hm
        exact ⟨rfl, hvw, [], by simp, by simp⟩
      · rw [if_neg hvw] at h
        by_cases hvm : v ∈ m
        · rw [if_pos hvm] at h; cases h
        · rw [if_neg hvm] at h
          cases hl : vwalkList d n (d.outAdj v) w (v :: m) with
          | error e => rw [hl] at h; cases h
          | ok p =>
            rw [hl] at h
            injection h with h1
            injection h1 with hw hm
            obtain ⟨hm1, hcov, t1, ht1, hd1⟩ :=
              (hQ n ih.1) (d.outAdj v) w (v :: m) p.1 p.2 (by rw [hl])
            subst hw
            have hm' : m' = m := by
              rw [← hm, hm1, List.erase_cons_head]
            refine ⟨hm', by simp, t1 ++ [v], by rw [ht1, List.append_assoc], ?_⟩
            intro x hx
            rcases List.mem_append.mp hx with hx | hx
            · intro hxm
              exact hd1 x hx (List.mem_cons_of_mem v hxm)
            · rw [List.mem_singleton.mp hx]
              exact hvm
    exact ⟨hP, hQ (n + 1) hP⟩

/-- Successful `vwalk`/`vwalkList` runs preserve the finish-order
invariant: every finished vertex comes after all its out-adjacency. -/
theorem vwalk_inv (d : DAG) : ∀ fuel : Nat,
    (∀ v w m w' m', vwalk d fuel v w m = .ok (w', m') →
      TopoSorted d true w → TopoSorted d true w') ∧
    (∀ l w m w' m', vwalkList d fuel l w m = .ok (w', m') →
      TopoSorted d true w → TopoSorted d true w') := by
  have hQ : ∀ fuel : Nat,
      (∀ v w m w' m', vwalk d fuel v w m = .ok (w', m') →
        TopoSorted d true w → TopoSorted d true w') →
      (∀ l w m w' m', vwalkList d fuel l w m = .ok (w', m') →
        TopoSorted d true w → TopoSorted d true w') := by
    intro fuel hP l
    induction l with
    | nil =>
      intro w m w' m' h hinv
      simp only [vwalkList] at h
      injection h with h1
      injection h1 with hw hm
      subst hw
      exact hinv
    | cons v vs ih =>
      intro w m w' m' h hinv
      simp only [vwalkList] at h
      cases hw : vwalk d fuel v w m with
      | error e => rw [hw] at h; cases h
      | ok p =>
        rw [hw] at h
        exact ih p.1 p.2 w' m' h (hP v w m p.1 p.2 (by rw [hw]) hinv)
  intro fuel
  induction fuel with
  | zero =>
    constructor
    · intro v w m w' m' h; simp [vwalk] at h
    · exact hQ 0 (by intro v w m w' m' h; simp [vwalk] at h)
  | succ n ih =>
    have hP : ∀ v w m w' m', vwalk d (n + 1) v w m = .ok (w', m') →
        TopoSorted d true w → TopoSorted d true w' := by
      intro v w m w' m' h hinv
      simp only [vwalk] at h
      by_cases hvw : v ∈ w
      · rw [if_pos hvw] at h
        injection h with h1
        injection h1 with hw hm
        subst hw
        exact hinv
      · rw [if_neg hvw] at h
        by_cases hvm : v ∈ m
        · rw [if_pos hvm] at h; cases h
        · rw [if_neg hvm] at h
          cases hl : vwalkList d n (d.outAdj v) w (v :: m) with
          | error e => rw [hl] at h; cases h
          | ok p =>
            rw [hl] at h
            injection h with h1
            injection h1 with hw hm
            have hinv1 : TopoSorted d true p.1 :=
              (hQ n ih.1) (d.outAdj v) w (v :: m) p.1 p.2 (by rw [hl]) hinv
            obtain ⟨hm1, hcov, t1, ht1, hd1⟩ :=
              (vwalk_post d n).2 (d.outAdj v) w (v :: m) p.1 p.2 (by rw [hl])
            have hvp1 : v ∉ p.1 := by
              rw [ht1]
              intro hmem
              rcases List.mem_append.mp hmem with hx | hx
              · exact hvw hx
              · exact hd1 v hx (List.mem_cons_self v m)
            subst hw
            constructor
            · rw [List.nodup_append]
              refine ⟨hinv1.1, List.nodup_singleton v, ?_⟩
              intro a ha hav
              rw [List.mem_singleton.mp hav] at ha
              exact hvp1 ha
            · intro a ha b hb
              rcases List.mem_append.mp ha with ha1 | hav
              · obtain ⟨hbo1, hidx⟩ := hinv1.2 a ha1 b hb
                refine ⟨List.mem_append.mpr (Or.inl hbo1), ?_⟩
                rw [List.indexOf_append_of_mem hbo1, List.indexOf_append_of_mem ha1]
                exact hidx
              · rw [List.mem_singleton.mp hav] at hb ⊢
                rw [adj_true] at hb
                have hbo1 : b ∈ p.1 := hcov b hb
                refine ⟨List.mem_append.mpr (Or.inl hbo1), ?_⟩
                rw [List.indexOf_append_of_mem hbo1,
                  List.indexOf_append_of_not_mem hvp1]
                simp only [List.indexOf_cons_self, Nat.add_zero]
                exact List.indexOf_lt_length.mpr hbo1
    exact ⟨hP, hQ (n + 1) hP⟩

/-- On an acyclic graph, the `validate` DFS neither reports a cycle nor
runs out of fuel: it succeeds and restores the marked set, provided the
marked set lies strictly upstream of the walked vertex and the fuel
exceeds the number of handles reachable from it. -/
theorem vwalk_total (d : DAG) (hac : Acyclic d) : ∀ fuel : Nat,
    (∀ v w m (S : Finset Nat),
      (∀ x ∈ m, Relation.TransGen (Rel d) x v) →
      (∀ z, Relation.ReflTransGen (Rel d) v z → z ∈ S) →
      S.card < fuel → ∃ w', vwalk d fuel v w m = .ok (w', m)) ∧
    (∀ l w m (S : Finset Nat),
      (∀ x ∈ m, ∀ u ∈ l, Relation.TransGen (Rel d) x u) →
      (∀ u ∈ l, ∀ z, Relation.ReflTransGen (Rel d) u z → z ∈ S) →
      S.card < fuel → ∃ w', vwalkList d fuel l w m = .ok (w', m)) := by
  have hQ : ∀ fuel : Nat,
      (∀ v w m (S : Finset Nat),
        (∀ x ∈ m, Relation.TransGen (Rel d) x v) →
        (∀ z, Relation.ReflTransGen (Rel d) v z → z ∈ S) →
        S.card < fuel → ∃ w', vwalk d fuel v w m = .ok (w', m)) →
      (∀ l w m (S : Finset Nat),
        (∀ x ∈ m, ∀ u ∈ l, Relation.TransGen (Rel d) x u) →
        (∀ u ∈ l, ∀ z, Relation.ReflTransGen (Rel d) u z → z ∈ S) →
        S.card < fuel → ∃ w', vwalkList d fuel l w m = .ok (w', m)) := by
    intro fuel hP l
    induction l with
    | nil =>
      intro w m S hm hS hc
      exact ⟨w, by simp [vwalkList]⟩
    | cons v vs ih =>
      intro w m S hm hS hc
      obtain ⟨w1, h1⟩ := hP v w m S
        (fun x hx => hm x hx v (List.mem_cons_self v vs))
        (hS v (List.mem_cons_self v vs)) hc
      obtain ⟨w2, h2⟩ := ih w1 m S
        (fun x hx u hu => hm x hx u (List.mem_cons_of_mem v hu))
        (fun u hu => hS u (List.mem_cons_of_mem v hu)) hc
      refine ⟨w2, ?_⟩
      simp only [vwalkList]
      rw [h1]
      exact h2
  intro fuel
  induction fuel with
  | zero =>
    constructor
    · intro v w m S hm hS hc; exact absurd hc (Nat.not_lt_zero _)
    · exact hQ 0 (by intro v w m S hm hS hc; exact absurd hc (Nat.not_lt_zero _))
  | succ n ih =>
    have hP : ∀ v w m (S : Finset Nat),
        (∀ x ∈ m, Relation.TransGen (Rel d) x v) →
        (∀ z, Relation.ReflTransGen (Rel d) v z → z ∈ S) →
        S.card < n + 1 → ∃ w', vwalk d (n + 1) v w m = .ok (w', m) := by
      intro v w m S hm hS hc
      by_cases hvw : v ∈ w
      · exact ⟨w, by simp [vwalk, hvw]⟩
      · by_cases hvm : v ∈ m
        · exact absurd (hm v hvm) (hac v)
        · have hvS : v ∈ S := hS v Relation.ReflTransGen.refl
          have harg1 : ∀ x ∈ (v :: m), ∀ u ∈ d.outAdj v,
              Relation.TransGen (Rel d) x u := by
            intro x hx u hu
            have hvu : Rel d v u := (mem_outAdj d v u).mp hu
            rcases List.mem_cons.mp hx with rfl | hx
            · exact Relation.TransGen.single hvu
            · exact (hm x hx).tail hvu
          have harg2 : ∀ u ∈ d.outAdj v, ∀ z,
              Relation.ReflTransGen (Rel d) u z → z ∈ S.erase v := by
            intro u hu z hz
            have hvu : Rel d v u := (mem_outAdj d v u).mp hu
            refine Finset.mem_erase.mpr ⟨?_, hS z (Relation.ReflTransGen.head hvu hz)⟩
            intro hzv
            rw [hzv] at hz
            exact hac v (Relation.TransGen.head' hvu hz)
          have harg3 : (S.erase v).card < n := by
            have h1' : 1 ≤ S.card := Finset.card_pos.mpr ⟨v, hvS⟩
            rw [Finset.card_erase_of_mem hvS]
            omega
          obtain ⟨w1, h1⟩ :=
            (hQ n ih.1) (d.outAdj v) w (v :: m) (S.erase v) harg1 harg2 harg3
          refine ⟨w1 ++ [v], ?_⟩
          simp only [vwalk]
          rw [if_neg hvw, if_neg hvm, h1]
          show Except.ok (w1 ++ [v], (v :: m).erase v) = Except.ok (w1 ++ [v], m)
          rw [List.erase_cons_head]
    exact ⟨hP, hQ (n + 1) hP⟩

/-- On a structurally valid DAG, `validate` succeeds. -/
theorem validate_ok_of_valid (d : DAG) (h : ValidDAG d) : validate d = .ok () := by
  obtain ⟨⟨r, hr⟩, hac, hcl⟩ := h
  have hself : (d.edges.any (fun e => decide (e.1 = e.2))) = false := by
    rw [List.any_eq_false]
    intro e he
    simp only [decide_eq_true_eq]
    intro hee
    refine hac e.1 (Relation.TransGen.single ?_)
    show (e.1, e.1) ∈ d.edges
    have h2 : (e.1, e.1) = e := by
      calc (e.1, e.1) = (e.1, e.2) := by rw [hee]
        _ = e := Prod.mk.eta
    rw [h2]
    exact he
  obtain ⟨W, hW⟩ := (vwalk_total d hac (dfsFuel d)).2 d.vertices [] []
    (allNodes d).toFinset (by simp)
    (fun u hu z hz =>
      List.mem_toFinset.mpr (rel_reach_allNodes d (vertices_subset_allNodes d hu) hz))
    (Nat.lt_succ_of_le (List.toFinset_card_le _))
  unfold validate
  rw [hr]
  simp only [hself, Bool.false_eq_true, if_false, hW]

/-- Inversion: a successful `validate` implies no self-loop passed the
scan and the DFS succeeded. -/
theorem validate_ok_elim (d : DAG) (h : validate d = .ok ()) :
    (d.edges.any (fun e => decide (e.1 = e.2))) = false ∧
    ∃ W M, vwalkList d (dfsFuel d) d.vertices [] [] = .ok (W, M) := by
  unfold validate at h
  split at h
  · cases h
  · split at h
    · next hself => cases h
    · next hself =>
      have hf : (d.edges.any (fun e => decide (e.1 = e.2))) = false := by
        cases hb : d.edges.any (fun e => decide (e.1 = e.2)) with
        | false => rfl
        | true => exact absurd hb hself
      refine ⟨hf, ?_⟩
      split at h
      · cases h
      · next p hW => exact ⟨p.1, p.2, by rw [hW, Prod.mk.eta]⟩

end KB

namespace KB

/-! ## Walk-function iteration lemmas -/

theorem walkList_ok {E : Type} (fn : Nat → Except E Unit)
    (hfn : ∀ v, fn v = .ok ()) : ∀ o, walkList fn o = .ok () := by
  intro o
  induction o with
  | nil => rfl
  | cons v vs ih => simp only [walkList, hfn v]; exact ih

theorem walkVisits_ok {E : Type} (fn : Nat → Except E Unit)
    (hfn : ∀ v, fn v = .ok ()) : ∀ o, walkVisits fn o = o := by
  intro o
  induction o with
  | nil => rfl
  | cons v vs ih => simp only [walkVisits, hfn v]; rw [ih]

/-- If `fn` succeeds on every vertex of `o1` and fails on `v`, the walk
over `o1 ++ v :: o2` propagates that error and visits exactly
`o1 ++ [v]`. -/
theorem walkList_stops {E : Type} (fn : Nat → Except E Unit) (e : E) :
    ∀ o1 (v : Nat) (o2 : List Nat), (∀ u ∈ o1, fn u = .ok ()) → fn v = .error e →
    walkList fn (o1 ++ v :: o2) = .error e ∧
    walkVisits fn (o1 ++ v :: o2) = o1 ++ [v] := by
  intro o1
  induction o1 with
  | nil =>
    intro v o2 hok herr
    constructor
    · simp only [List.nil_append, walkList, herr]
    · simp only [List.nil_append, walkVisits, herr]
  | cons u us ih =>
    intro v o2 hok herr
    have hu : fn u = .ok () := hok u (List.mem_cons_self u us)
    obtain ⟨ih1, ih2⟩ := ih v o2 (fun x hx => hok x (List.mem_cons_of_mem u hx)) herr
    constructor
    · simp only [List.cons_append, walkList, hu]
      exact ih1
    · simp only [List.cons_append, walkVisits, hu]
      show u :: walkVisits fn (us ++ v :: o2) = u :: (us ++ [v])
      rw [ih2]

/-- A strictly monotone edge relation is acyclic (used to discharge the
acyclicity hypothesis on concrete graphs). -/
theorem acyclic_of_mono (d : DAG) (h : ∀ e ∈ d.edges, e.1 < e.2) : Acyclic d := by
  intro v hv
  have hmono : ∀ a b, Relation.TransGen (Rel d) a b → a < b := by
    intro a b hab
    induction hab with
    | single h1 => exact h (_, _) h1
    | tail hprev h1 ih => exact lt_trans ih (h (_, _) h1)
  exact lt_irrefl v (hmono v v hv)

/-! ## Claim C1: topological walks visit every vertex once, in order -/

/-- C1: on every valid single-rooted acyclic DAG, `WalkTopoOrder` and
`WalkReverseTopoOrder` invoke the walk function on every vertex exactly
once (the visit sequences are duplicate-free and cover exactly the vertex
set), and for every edge (u,v), u is visited strictly before v in forward
order and strictly after v in reverse order. -/
theorem C1_walk_topo_order {E : Type} (d : DAG) (fn : Nat → Except E Unit)
    (hvalid : ValidDAG d) (hfn : ∀ v, fn v = .ok ()) :
    ∃ o o',
      WalkTopoOrderVisits d fn = some o ∧
      WalkReverseTopoOrderVisits d fn = some o' ∧
      WalkTopoOrder d fn = some (.ok ()) ∧
      WalkReverseTopoOrder d fn = some (.ok ()) ∧
      o.Nodup ∧ o'.Nodup ∧
      (∀ v, v ∈ o ↔ v ∈ d.vertices) ∧ (∀ v, v ∈ o' ↔ v ∈ d.vertices) ∧
      (∀ e ∈ d.edges, o.indexOf e.1 < o.indexOf e.2 ∧
        o'.indexOf e.2 < o'.indexOf e.1) := by
  have hval := validate_ok_of_valid d hvalid
  obtain ⟨o, ho, hsorted, hmem⟩ := topologicalOrder_spec d false hvalid.2.1 hvalid.2.2
  obtain ⟨o', ho', hsorted', hmem'⟩ := topologicalOrder_spec d true hvalid.2.1 hvalid.2.2
  refine ⟨o, o', ?_, ?_, ?_, ?_, hsorted.1, hsorted'.1, hmem, hmem', ?_⟩
  · unfold WalkTopoOrderVisits
    rw [hval, ho]
    simp [walkVisits_ok fn hfn]
  · unfold WalkReverseTopoOrderVisits
    rw [hval, ho']
    simp [walkVisits_ok fn hfn]
  · unfold WalkTopoOrder
    rw [hval, ho]
    simp [walkList_ok fn hfn, Except.mapError]
  · unfold WalkReverseTopoOrder
    rw [hval, ho']
    simp [walkList_ok fn hfn, Except.mapError]
  · intro e he
    have h1 : e.1 ∈ d.vertices := (hvalid.2.2 e he).1
    have h2 : e.2 ∈ d.vertices := (hvalid.2.2 e he).2
    constructor
    · have hin : e.1 ∈ adj d false e.2 := by
        rw [adj_false]; exact (mem_inAdj d e.1 e.2).mpr (by rw [Prod.mk.eta]; exact he)
      exact (hsorted.2 e.2 ((hmem e.2).mpr h2) e.1 hin).2
    · have hout : e.2 ∈ adj d true e.1 := by
        rw [adj_true]; exact (mem_outAdj d e.1 e.2).mpr (by rw [Prod.mk.eta]; exact he)
      exact (hsorted'.2 e.1 ((hmem' e.1).mpr h1) e.2 hout).2

/-- Witness for C1 on the chain 1 → 2 → 3. -/
theorem C1_walk_topo_order_witness :
    ∃ o o',
      WalkTopoOrderVisits (E := Unit) ⟨[1, 2, 3], [(1, 2), (2, 3)]⟩
        (fun _ => .ok ()) = some o ∧
      WalkReverseTopoOrderVisits (E := Unit) ⟨[1, 2, 3], [(1, 2), (2, 3)]⟩
        (fun _ => .ok ()) = some o' ∧
      WalkTopoOrder (E := Unit) ⟨[1, 2, 3], [(1, 2), (2, 3)]⟩
        (fun _ => .ok ()) = some (.ok ()) ∧
      WalkReverseTopoOrder (E := Unit) ⟨[1, 2, 3], [(1, 2), (2, 3)]⟩
        (fun _ => .ok ()) = some (.ok ()) ∧
      o.Nodup ∧ o'.Nodup ∧
      (∀ v, v ∈ o ↔ v ∈ (⟨[1, 2, 3], [(1, 2), (2, 3)]⟩ : DAG).vertices) ∧
      (∀ v, v ∈ o' ↔ v ∈ (⟨[1, 2, 3], [(1, 2), (2, 3)]⟩ : DAG).vertices) ∧
      (∀ e ∈ (⟨[1, 2, 3], [(1, 2), (2, 3)]⟩ : DAG).edges,
        o.indexOf e.1 < o.indexOf e.2 ∧ o'.indexOf e.2 < o'.indexOf e.1) :=
  C1_walk_topo_order ⟨[1, 2, 3], [(1, 2), (2, 3)]⟩ (fun _ => .ok ())
    ⟨⟨1, by decide⟩, acyclic_of_mono _ (by decide),
      by unfold EdgesClosed; decide⟩ (fun v => rfl)

/-! ## Claim C2: `validate` rejects broken graphs and blocks the walk -/

/-- C2: `validate` errors on every graph with a 2-cycle between stored
vertices, on every graph with a self-loop edge, and on every graph with
two distinct zero-in-degree vertices; when `validate` fails, both walks
return that error and invoke the walk function on no vertex. -/
theorem C2_validate_rejects :
    (∀ (d : DAG) (A B : Nat), A ∈ d.vertices → B ∈ d.vertices →
      (A, B) ∈ d.edges → (B, A) ∈ d.edges → ∃ msg, validate d = .error msg) ∧
    (∀ (d : DAG) (A : Nat), (A, A) ∈ d.edges → ∃ msg, validate d = .error msg) ∧
    (∀ (d : DAG) (A B : Nat), A ∈ d.vertices → B ∈ d.vertices → A ≠ B →
      d.inAdj A = [] → d.inAdj B = [] → ∃ msg, validate d = .error msg) ∧
    (∀ (d : DAG) (E : Type) (fn : Nat → Except E Unit) (msg : String),
      validate d = .error msg →
      WalkTopoOrder d fn = some (.error (.structural msg)) ∧
      WalkReverseTopoOrder d fn = some (.error (.structural msg)) ∧
      WalkTopoOrderVisits d fn = some [] ∧
      WalkReverseTopoOrderVisits d fn = some []) := by
  have hself : ∀ (d : DAG) (A : Nat), (A, A) ∈ d.edges →
      validate d = .ok () → False := by
    intro d A hAA hok
    obtain ⟨hany, _⟩ := validate_ok_elim d hok
    rw [List.any_eq_false] at hany
    have := hany (A, A) hAA
    simp at this
  refine ⟨?_, ?_, ?_, ?_⟩
  · intro d A B hA hB hAB hBA
    cases hv : validate d with
    | error msg => exact ⟨msg, rfl⟩
    | ok u =>
      exfalso
      cases u
      by_cases hEq : A = B
      · subst hEq
        exact hself d A hAB hv
      · obtain ⟨hany, W, M, hW⟩ := validate_ok_elim d hv
        have hsorted : TopoSorted d true W :=
          (vwalk_inv d (dfsFuel d)).2 d.vertices [] [] W M hW ⟨List.nodup_nil, by simp⟩
        obtain ⟨_, hcov, _⟩ := (vwalk_post d (dfsFuel d)).2 d.vertices [] [] W M hW
        have hBoutA : B ∈ adj d true A := by
          rw [adj_true]; exact (mem_outAdj d A B).mpr hAB
        have hAoutB : A ∈ adj d true B := by
          rw [adj_true]; exact (mem_outAdj d B A).mpr hBA
        have h1 := (hsorted.2 A (hcov A hA) B hBoutA).2
        have h2 := (hsorted.2 B (hcov B hB) A hAoutB).2
        exact lt_asymm h1 h2
  · intro d A hAA
    cases hv : validate d with
    | error msg => exact ⟨msg, rfl⟩
    | ok u => exact absurd hv (by cases u; exact fun h => hself d A hAA h)
  · intro d A B hA hB hne hiA hiB
    have hroot : d.Root = none := (C5_root d).2.2.2 A B hA hB hne hiA hiB
    refine ⟨"no single Root found", ?_⟩
    unfold validate
    rw [hroot]
  · intro d E fn msg hmsg
    refine ⟨?_, ?_, ?_, ?_⟩
    · unfold WalkTopoOrder; rw [hmsg]
    · unfold WalkReverseTopoOrder; rw [hmsg]
    · unfold WalkTopoOrderVisits; rw [hmsg]
    · unfold WalkReverseTopoOrderVisits; rw [hmsg]

/-- Witness for C2 on concrete graphs: a 2-cycle, a self-loop, two roots,
and a blocked walk. -/
theorem C2_validate_rejects_witness :
    (∃ msg, validate ⟨[1, 2], [(1, 2), (2, 1)]⟩ = .error msg) ∧
    (∃ msg, validate ⟨[1, 2], [(1, 2), (2, 2)]⟩ = .error msg) ∧
    (∃ msg, validate ⟨[1, 2], []⟩ = .error msg) ∧
    (WalkTopoOrder (E := Unit) ⟨[1, 2], []⟩ (fun _ => .ok ()) =
      some (.error (.structural "no single Root found")) ∧
     WalkTopoOrderVisits (E := Unit) ⟨[1, 2], []⟩ (fun _ => .ok ()) = some []) := by
  refine ⟨?_, ?_, ?_, ?_⟩
  · exact C2_validate_rejects.1 ⟨[1, 2], [(1, 2), (2, 1)]⟩ 1 2
      (by decide) (by decide) (by decide) (by decide)
  · exact C2_validate_rejects.2.1 ⟨[1, 2], [(1, 2), (2, 2)]⟩ 2 (by decide)
  · exact C2_validate_rejects.2.2.1 ⟨[1, 2], []⟩ 1 2
      (by decide) (by decide) (by decide) (by decide) (by decide)
  · have h := C2_validate_rejects.2.2.2 ⟨[1, 2], []⟩ Unit (fun _ => .ok ())
      "no single Root found" rfl
    exact ⟨h.1, h.2.2.1⟩

/-! ## Claim C6: the walk stops at the first erring vertex -/

/-- C6: on a valid DAG, if the walk function succeeds on the first k
vertices of the computed forward topological order and errs on the
(k+1)-st, `WalkTopoOrder` returns that error unchanged and the walk
function is invoked on exactly those k+1 vertices — later vertices are
never visited. -/
theorem C6_walk_stops_at_first_error {E : Type} (d : DAG)
    (fn : Nat → Except E Unit) (e : E)
    (o1 : List Nat) (v : Nat) (o2 : List Nat)
    (hvalid : ValidDAG d)
    (ho : topologicalOrder d false = some (o1 ++ v :: o2))
    (hok : ∀ u ∈ o1, fn u = .ok ())
    (herr : fn v = .error e) :
    WalkTopoOrder d fn = some (.error (.user e)) ∧
    WalkTopoOrderVisits d fn = some (o1 ++ [v]) ∧
    (o1 ++ [v]).length = o1.length + 1 := by
  have hval := validate_ok_of_valid d hvalid
  obtain ⟨hstop, hvis⟩ := walkList_stops fn e o1 v o2 hok herr
  refine ⟨?_, ?_, by simp⟩
  · unfold WalkTopoOrder
    rw [hval, ho]
    simp [hstop, Except.mapError]
  · unfold WalkTopoOrderVisits
    rw [hval, ho]
    simp [hvis]

/-- Witness for C6: a 5-vertex chain whose walk function fails on vertex 3
— the error propagates and exactly 3 vertices are visited, not 5. -/
theorem C6_walk_stops_at_first_error_witness :
    WalkTopoOrder (E := String) ⟨[1, 2, 3, 4, 5], [(1, 2), (2, 3), (3, 4), (4, 5)]⟩
      (fun v => if v = 3 then .error "boom" else .ok ()) =
      some (.error (.user "boom")) ∧
    WalkTopoOrderVisits (E := String) ⟨[1, 2, 3, 4, 5], [(1, 2), (2, 3), (3, 4), (4, 5)]⟩
      (fun v => if v = 3 then .error "boom" else .ok ()) = some ([1, 2] ++ [3]) ∧
    ([1, 2] ++ [3]).length = [1, 2].length + 1 := by
  refine C6_walk_stops_at_first_error
    ⟨[1, 2, 3, 4, 5], [(1, 2), (2, 3), (3, 4), (4, 5)]⟩
    (fun v => if v = 3 then .error "boom" else .ok ()) "boom" [1, 2] 3 [4, 5]
    ⟨⟨1, by decide⟩, acyclic_of_mono _ (by decide),
      by unfold EdgesClosed; decide⟩ ?_ ?_ rfl
  · show topologicalOrder ⟨[1, 2, 3, 4, 5], [(1, 2), (2, 3), (3, 4), (4, 5)]⟩ false =
      some ([1, 2] ++ 3 :: [4, 5])
    simp [topologicalOrder, twalk, twalkList, adj, DAG.inAdj, DAG.outAdj, dfsFuel, allNodes]
  · intro u hu
    rcases List.mem_cons.mp hu with rfl | hu
    · rfl
    · rcases List.mem_cons.mp hu with rfl | hu
      · rfl
      · cases hu

end KB

namespace KB

/-! ## Claim C7: exact rule matching by resolved type -/

/-- The matcher keeps exactly the rules whose primary type parses to the
object's type. -/
theorem matchedRulesOf_eq_filter {γ : Type} (g : GroupVersionKind) :
    ∀ (rules rs : List (OwnershipRule γ)), matchedRulesOf g rules = .ok rs →
    rs = rules.filter (fun r =>
      match objectTypeToGVKCore r.primary with
      | .ok g2 => decide (g2 = g)
      | .error _ => false) := by
  intro rules
  induction rules with
  | nil =>
    intro rs h
    simp only [matchedRulesOf] at h
    injection h with h1
    rw [← h1]
    rfl
  | cons r rest ih =>
    intro rs h
    simp only [matchedRulesOf] at h
    cases hp : objectTypeToGVKCore r.primary with
    | error e => rw [hp] at h; cases h
    | ok gvk =>
      rw [hp] at h
      cases hrest : matchedRulesOf g rest with
      | error e => rw [hrest] at h; cases h
      | ok rs1 =>
        rw [hrest] at h
        have h' : (if gvk = g then Except.ok (r :: rs1)
            else (Except.ok rs1 : Except String (List (OwnershipRule γ)))) =
            Except.ok rs := h
        by_cases hg : gvk = g
        · subst hg
          rw [if_pos rfl] at h'
          injection h' with h1
          rw [← h1, List.filter_cons, hp]
          simp [ih rs1 hrest]
        · rw [if_neg hg] at h'
          injection h' with h1
          rw [← h1, List.filter_cons, hp]
          simp [hg, ih rs1 hrest]

/-- C7: for every object type and rule list, the matcher selects exactly
the rules whose Primary parses to a type structurally equal to the
object's resolved type — equal in group, version and kind; a rule whose
Primary differs is never selected, and the matched list is what drives
the secondary queries of `getSecondaryObjectsOf`. -/
theorem C7_rule_matcher_exact {γ : Type} (g : GroupVersionKind)
    (rules rs : List (OwnershipRule γ))
    (h : matchedRulesOf g rules = .ok rs) :
    rs = rules.filter (fun r =>
      match objectTypeToGVKCore r.primary with
      | .ok g2 => decide (g2 = g)
      | .error _ => false) ∧
    (∀ r ∈ rs, objectTypeToGVKCore r.primary = .ok g) ∧
    (∀ r ∈ rules, objectTypeToGVKCore r.primary ≠ .ok g → r ∉ rs) ∧
    (∀ (L : Type) (env : QueryEnv γ L) (obj : KObject), obj.gvk = g →
      getSecondaryObjectsOf env obj rules = collectSecondaries env obj rs) := by
  have hfil := matchedRulesOf_eq_filter g rules rs h
  refine ⟨hfil, ?_, ?_, ?_⟩
  · intro r hr
    rw [hfil] at hr
    have := List.of_mem_filter hr
    cases hp : objectTypeToGVKCore r.primary with
    | error e => rw [hp] at this; cases this
    | ok g2 =>
      rw [hp] at this
      simp only [decide_eq_true_eq] at this
      rw [this]
  · intro r hrules hne hr
    rw [hfil] at hr
    have := List.of_mem_filter hr
    cases hp : objectTypeToGVKCore r.primary with
    | error e => rw [hp] at this; cases this
    | ok g2 =>
      rw [hp] at this
      simp only [decide_eq_true_eq] at this
      exact hne (by rw [this] at hp; exact hp)
  · intro L env obj hobj
    unfold getSecondaryObjectsOf
    rw [hobj, h]

/-- Witness for C7: one matching and one non-matching rule. -/
theorem C7_rule_matcher_exact_witness :
    (∀ r ∈ [(⟨⟨"apps/v1", "Cluster"⟩,
          [⟨⟨"v1", "Pod"⟩, ()⟩]⟩ : OwnershipRule Unit)],
      objectTypeToGVKCore r.primary = .ok ⟨"apps", "v1", "Cluster"⟩) ∧
    (∀ r ∈ [(⟨⟨"apps/v1", "Cluster"⟩, [⟨⟨"v1", "Pod"⟩, ()⟩]⟩ : OwnershipRule Unit),
        ⟨⟨"v1", "Pod"⟩, []⟩],
      objectTypeToGVKCore r.primary ≠ .ok ⟨"apps", "v1", "Cluster"⟩ →
      r ∉ [(⟨⟨"apps/v1", "Cluster"⟩,
        [⟨⟨"v1", "Pod"⟩, ()⟩]⟩ : OwnershipRule Unit)]) := by
  have h := C7_rule_matcher_exact (γ := Unit) ⟨"apps", "v1", "Cluster"⟩
    [⟨⟨"apps/v1", "Cluster"⟩, [⟨⟨"v1", "Pod"⟩, ()⟩]⟩, ⟨⟨"v1", "Pod"⟩, []⟩]
    [⟨⟨"apps/v1", "Cluster"⟩, [⟨⟨"v1", "Pod"⟩, ()⟩]⟩] rfl
  exact ⟨h.2.1, h.2.2.1⟩

end KB

namespace KB

/-! ## Claim C8: the flat collector computes the tree's identity set -/

/-- A successfully built tree contains exactly the identities of the
objects reachable from its primary through the ownership step relation. -/
theorem buildTree_ids {γ L : Type} (env : QueryEnv γ L)
    (rules : List (OwnershipRule γ)) : ∀ fuel : Nat,
    (∀ x t, buildTree env rules fuel x = some (.ok t) →
      ∀ k, k ∈ treeIds t ↔
        ∃ z, Relation.ReflTransGen (secStep env rules) x z ∧ k = getObjectRef z) ∧
    (∀ l ts, buildForest env rules fuel l = some (.ok ts) →
      ∀ k, k ∈ forestIds ts ↔
        ∃ u ∈ l, ∃ z, Relation.ReflTransGen (secStep env rules) u z ∧
          k = getObjectRef z) := by
  have hQ : ∀ fuel : Nat,
      (∀ x t, buildTree env rules fuel x = some (.ok t) →
        ∀ k, k ∈ treeIds t ↔
          ∃ z, Relation.ReflTransGen (secStep env rules) x z ∧ k = getObjectRef z) →
      (∀ l ts, buildForest env rules fuel l = some (.ok ts) →
        ∀ k, k ∈ forestIds ts ↔
          ∃ u ∈ l, ∃ z, Relation.ReflTransGen (secStep env rules) u z ∧
            k = getObjectRef z) := by
    intro fuel hP l
    induction l with
    | nil =>
      intro ts h k
      simp only [buildForest] at h
      injection h with h1
      injection h1 with h2
      rw [← h2]
      simp [forestIds]
    | cons o os ih =>
      intro ts h k
      simp only [buildForest] at h
      cases hb : buildTree env rules fuel o with
      | none => rw [hb] at h; cases h
      | some r =>
        rw [hb] at h
        cases r with
        | error e => injection h with h1; injection h1
        | ok t1 =>
          have h1 : (match buildForest env rules fuel os with
              | none => none
              | some (Except.error e) => some (Except.error e)
              | some (Except.ok ts1) => some (Except.ok (t1 :: ts1))) =
              some (Except.ok ts) := h
          cases hf : buildForest env rules fuel os with
          | none => rw [hf] at h1; cases h1
          | some r2 =>
            rw [hf] at h1
            cases r2 with
            | error e => injection h1 with h2; injection h2
            | ok ts1 =>
              injection h1 with h2
              injection h2 with h3
              rw [← h3]
              simp only [forestIds, List.mem_append]
              constructor
              · intro hk
                rcases hk with hk | hk
                · obtain ⟨z, hz, hkz⟩ := (hP o t1 hb k).mp hk
                  exact ⟨o, List.mem_cons_self o os, z, hz, hkz⟩
                · obtain ⟨u, hu, z, hz, hkz⟩ := (ih ts1 hf k).mp hk
                  exact ⟨u, List.mem_cons_of_mem o hu, z, hz, hkz⟩
              · rintro ⟨u, hu, z, hz, hkz⟩
                rcases List.mem_cons.mp hu with rfl | hu
                · exact Or.inl ((hP u t1 hb k).mpr ⟨z, hz, hkz⟩)
                · exact Or.inr ((ih ts1 hf k).mpr ⟨u, hu, z, hz, hkz⟩)
  intro fuel
  induction fuel with
  | zero =>
    constructor
    · intro x t h; simp [buildTree] at h
    · exact hQ 0 (by intro x t h; simp [buildTree] at h)
  | succ n ih =>
    have hP : ∀ x t, buildTree env rules (n + 1) x = some (.ok t) →
        ∀ k, k ∈ treeIds t ↔
          ∃ z, Relation.ReflTransGen (secStep env rules) x z ∧
            k = getObjectRef z := by
      intro x t h k
      simp only [buildTree] at h
      cases hsec : getSecondaryObjectsOf env x rules with
      | error e => rw [hsec] at h; injection h with h1; injection h1
      | ok secs =>
        rw [hsec] at h
        have h1 : (match buildForest env rules n secs with
            | none => none
            | some (Except.error e) => some (Except.error e)
            | some (Except.ok ts) =>
              some (Except.ok (ObjectTreeNode.node (getObjectRef x) ts))) =
            some (Except.ok t) := h
        cases hf : buildForest env rules n secs with
        | none => rw [hf] at h1; cases h1
        | some r =>
          rw [hf] at h1
          cases r with
          | error e => injection h1 with h2; injection h2
          | ok ts =>
            injection h1 with h2
            injection h2 with h3
            rw [← h3]
            simp only [treeIds, List.mem_cons]
            constructor
            · intro hk
              rcases hk with hk | hk
              · exact ⟨x, Relation.ReflTransGen.refl, hk⟩
              · obtain ⟨u, hu, z, hz, hkz⟩ := ((hQ n ih.1) secs ts hf k).mp hk
                exact ⟨z, Relation.ReflTransGen.head ⟨secs, hsec, hu⟩ hz, hkz⟩
            · rintro ⟨z, hz, hkz⟩
              rcases Relation.ReflTransGen.cases_head hz with rfl | ⟨y, hstep, hz2⟩
              · exact Or.inl hkz
              · obtain ⟨l2, hl2, hy⟩ := hstep
                rw [hsec] at hl2
                injection hl2 with hl3
                rw [← hl3] at hy
                exact Or.inr (((hQ n ih.1) secs ts hf k).mpr ⟨y, hy, z, hz2, hkz⟩)
    exact ⟨hP, hQ (n + 1) hP⟩

/-- A successful queue-loop run collects the start set plus exactly the
identities of all objects reachable from the queue through the ownership
step relation. -/
theorem collectLoop_ids {γ L : Type} (env : QueryEnv γ L)
    (rules : List (OwnershipRule γ)) : ∀ (fuel : Nat) (q : List KObject)
    (s0 : Finset GVKNObjKey) (m0 : GVKNObjKey → Option KObject)
    (s : Finset GVKNObjKey) (m : GVKNObjKey → Option KObject),
    collectLoop env rules fuel q s0 m0 = some (.ok (s, m)) →
    ∀ k, k ∈ s ↔ k ∈ s0 ∨
      ∃ x ∈ q, ∃ z, Relation.ReflTransGen (secStep env rules) x z ∧
        k = getObjectRef z := by
  intro fuel
  induction fuel with
  | zero =>
    intro q s0 m0 s m h k
    cases q with
    | nil =>
      simp only [collectLoop] at h
      injection h with h1
      injection h1 with h2
      have h3 : s0 = s := congrArg Prod.fst h2
      rw [← h3]
      simp
    | cons obj rest => simp [collectLoop] at h
  | succ n ih =>
    intro q s0 m0 s m h k
    cases q with
    | nil =>
      simp only [collectLoop] at h
      injection h with h1
      injection h1 with h2
      have h3 : s0 = s := congrArg Prod.fst h2
      rw [← h3]
      simp
    | cons obj rest =>
      simp only [collectLoop] at h
      cases hsec : getSecondaryObjectsOf env obj rules with
      | error e => rw [hsec] at h; injection h with h1; injection h1
      | ok secs =>
        rw [hsec] at h
        have hrec := ih (rest ++ secs) (insert (getObjectRef obj) s0)
          (fun k2 => if k2 = getObjectRef obj then some obj else m0 k2) s m h k
        rw [hrec]
        constructor
        · intro hk
          rcases hk with hk | ⟨x, hx, z, hz, hkz⟩
          · rcases Finset.mem_insert.mp hk with hk | hk
            · exact Or.inr ⟨obj, List.mem_cons_self obj rest, obj,
                Relation.ReflTransGen.refl, hk⟩
            · exact Or.inl hk
          · rcases List.mem_append.mp hx with hx | hx
            · exact Or.inr ⟨x, List.mem_cons_of_mem obj hx, z, hz, hkz⟩
            · exact Or.inr ⟨obj, List.mem_cons_self obj rest, z,
                Relation.ReflTransGen.head ⟨secs, hsec, hx⟩ hz, hkz⟩
        · intro hk
          rcases hk with hk | ⟨x, hx, z, hz, hkz⟩
          · exact Or.inl (Finset.mem_insert_of_mem hk)
          · rcases List.mem_cons.mp hx with rfl | hx
            · rcases Relation.ReflTransGen.cases_head hz with rfl | ⟨y, hstep, hz2⟩
              · exact Or.inl (by rw [hkz]; exact Finset.mem_insert_self _ _)
              · obtain ⟨l2, hl2, hy⟩ := hstep
                rw [hsec] at hl2
                injection hl2 with hl3
                rw [← hl3] at hy
                exact Or.inr ⟨y, List.mem_append.mpr (Or.inr hy), z, hz2, hkz⟩
            · exact Or.inr ⟨x, List.mem_append.mpr (Or.inl hx), z, hz, hkz⟩

end KB

namespace KB

/-- C8: whenever the recursive tree builder and the flat collector both
succeed on the same root and rule set, the identity set returned by the
collector equals the set of identities of all Primary references in the
returned tree, and — being a set — it holds every identity at most once
even when rules reach an object via more than one path. -/
theorem C8_flat_equals_tree {γ L : Type} (env : QueryEnv γ L)
    (rules : List (OwnershipRule γ)) (root : KObject) (fuel1 fuel2 : Nat)
    (t : ObjectTreeNode) (s : Finset GVKNObjKey) (m : GVKNObjKey → Option KObject)
    (ht : getObjectTreeFromCache env rules fuel1 (some root) = some (.ok (some t)))
    (hf : getObjectsFromCache env rules fuel2 root = some (.ok (s, m))) :
    s = (treeIds t).toFinset ∧ s.val.Nodup := by
  have ht' : buildTree env rules fuel1 root = some (.ok t) := by
    unfold getObjectTreeFromCache at ht
    have ht2 : Option.map (fun r => Except.map some r)
        (buildTree env rules fuel1 root) = some (.ok (some t)) := ht
    cases hb : buildTree env rules fuel1 root with
    | none => rw [hb] at ht2; cases ht2
    | some r =>
      rw [hb] at ht2
      cases r with
      | error e => injection ht2 with h1; injection h1
      | ok t2 =>
        injection ht2 with h1
        injection h1 with h2
        injection h2 with h3
        rw [h3]

  have hf' : collectLoop env rules fuel2 [root] ∅ (fun _ => none) =
      some (.ok (s, m)) := hf
  have hTree := (buildTree_ids env rules fuel1).1 root t ht'
  have hFlat := collectLoop_ids env rules fuel2 [root] ∅ (fun _ => none) s m hf'
  refine ⟨?_, s.nodup⟩
  apply Finset.ext
  intro k
  rw [hFlat k, List.mem_toFinset, hTree k]
  simp

end KB

namespace KB

/-- Witness for C8: a Cluster owning one Pod through two duplicate rules —
the tree lists the Pod twice, the identity set holds it once, and the two
agree as sets. -/
theorem C8_flat_equals_tree_witness :
    ∃ (t : ObjectTreeNode) (s : Finset GVKNObjKey) (m : GVKNObjKey → Option KObject),
      getObjectTreeFromCache envPod rulesDup 3 (some objCluster) =
        some (.ok (some t)) ∧
      getObjectsFromCache envPod rulesDup 4 objCluster = some (.ok (s, m)) ∧
      s = (treeIds t).toFinset ∧ s.val.Nodup := by
  have h1 : getObjectTreeFromCache envPod rulesDup 3 (some objCluster) =
      some (.ok (some (ObjectTreeNode.node (getObjectRef objCluster)
        [.node (getObjectRef objPod) [], .node (getObjectRef objPod) []]))) := by
    have hsecC : getSecondaryObjectsOf envPod objCluster rulesDup =
      .ok [objPod, objPod] := rfl
    have hsecP : getSecondaryObjectsOf envPod objPod rulesDup = .ok [] := rfl
    simp [getObjectTreeFromCache, buildTree, buildForest, hsecC, hsecP, Except.map]
  have h2 : getObjectsFromCache envPod rulesDup 4 objCluster = some (.ok
      (insert (getObjectRef objPod) (insert (getObjectRef objCluster) ∅),
       fun k => if k = getObjectRef objPod then some objPod
         else if k = getObjectRef objPod then some objPod
         else if k = getObjectRef objCluster then some objCluster else none)) := rfl
  refine ⟨_, _, _, h1, h2, ?_⟩
  exact C8_flat_equals_tree envPod rulesDup objCluster 3 4 _ _ _ h1 h2

end KB

namespace KB

/-! ## Claim C9: the collector queue loop -/

/-- Counterexample to C9 as stated: the loop enqueues every returned
secondary, including already-discovered ones — with two duplicate rules
the Pod is popped twice (three pops for two distinct objects), and on a
cyclic rule set the loop never terminates, whatever the iteration budget
(every fuel value is exhausted). -/
theorem C9_counterexample :
    collectVisits envPod rulesDup 4 [objCluster] =
      some [getObjectRef objCluster, getObjectRef objPod, getObjectRef objPod] ∧
    ¬ List.Nodup [getObjectRef objCluster, getObjectRef objPod,
      getObjectRef objPod] ∧
    (∀ fuel (s : Finset GVKNObjKey) (m : GVKNObjKey → Option KObject),
      collectLoop envPod rulesCyc fuel [objPod] s m = none) := by
  refine ⟨rfl, by decide, ?_⟩
  intro fuel
  induction fuel with
  | zero => intro s m; rfl
  | succ n ih =>
    intro s m
    have hsec : getSecondaryObjectsOf envPod objPod rulesCyc = .ok [objPod] := rfl
    simp only [collectLoop, hsec, List.nil_append]
    exact ih _ _

end KB

namespace KB

/-- C9 (amended): in each iteration the flat collector pops one work item,
inserts its identity into the identity set and the identity→object map,
and then enqueues every returned secondary — including ones already
discovered — or stops with the lookup error; the queue-driven loop
terminates on every ownership graph whose owns-relation is ranked (each
secondary strictly below its owner, per-object secondary lists bounded),
in particular on finite acyclic graphs where objects are reachable
through more than one path — but not on cyclic ones. -/
theorem C9_collector_steps_and_termination {γ L : Type} (env : QueryEnv γ L)
    (rules : List (OwnershipRule γ)) :
    (∀ (fuel : Nat) (obj : KObject) (rest : List KObject)
        (s : Finset GVKNObjKey) (m : GVKNObjKey → Option KObject) secs,
      getSecondaryObjectsOf env obj rules = .ok secs →
      collectLoop env rules (fuel + 1) (obj :: rest) s m =
        collectLoop env rules fuel (rest ++ secs) (insert (getObjectRef obj) s)
          (fun k => if k = getObjectRef obj then some obj else m k)) ∧
    (∀ (fuel : Nat) (obj : KObject) (rest : List KObject)
        (s : Finset GVKNObjKey) (m : GVKNObjKey → Option KObject) e,
      getSecondaryObjectsOf env obj rules = .error e →
      collectLoop env rules (fuel + 1) (obj :: rest) s m = some (.error e)) ∧
    (∀ (h : KObject → Nat) (B : Nat),
      (∀ x l, getSecondaryObjectsOf env x rules = .ok l →
        l.length ≤ B ∧ ∀ y ∈ l, h y < h x) →
      ∀ root, ∃ fuel r, getObjectsFromCache env rules fuel root = some r) := by
  refine ⟨?_, ?_, ?_⟩
  · intro fuel obj rest s m secs hsec
    simp only [collectLoop, hsec]
  · intro fuel obj rest s m e hsec
    simp only [collectLoop, hsec]
  · intro h B hspec root
    have key : ∀ (fuel : Nat) (q : List KObject) (s : Finset GVKNObjKey)
        (m : GVKNObjKey → Option KObject),
        (q.map (fun x => (B + 1) ^ h x)).sum < fuel →
        ∃ r, collectLoop env rules fuel q s m = some r := by
      intro fuel
      induction fuel with
      | zero => intro q s m hq; exact absurd hq (Nat.not_lt_zero _)
      | succ n ih =>
        intro q s m hq
        cases q with
        | nil => exact ⟨.ok (s, m), rfl⟩
        | cons obj rest =>
          cases hsec : getSecondaryObjectsOf env obj rules with
          | error e => exact ⟨.error e, by simp only [collectLoop, hsec]⟩
          | ok secs =>
            obtain ⟨hlen, hrank⟩ := hspec obj secs hsec
            have hsecs : ((secs.map (fun x => (B + 1) ^ h x)).sum <
                (B + 1) ^ h obj) := by
              cases hobj : h obj with
              | zero =>
                cases secs with
                | nil => simp
                | cons y ys =>
                  exact absurd (hrank y (List.mem_cons_self y ys))
                    (by rw [hobj]; exact Nat.not_lt_zero _)
              | succ k =>
                have hbound : ∀ z ∈ secs.map (fun x => (B + 1) ^ h x),
                    z ≤ (B + 1) ^ k := by
                  intro z hz
                  obtain ⟨y, hy, rfl⟩ := List.mem_map.mp hz
                  have hyk : h y < h obj := hrank y hy
                  rw [hobj] at hyk
                  exact Nat.pow_le_pow_right (Nat.succ_pos B)
                    (Nat.lt_succ_iff.mp hyk)
                calc (secs.map (fun x => (B + 1) ^ h x)).sum
                    ≤ (secs.map (fun x => (B + 1) ^ h x)).length • (B + 1) ^ k :=
                      List.sum_le_card_nsmul _ _ hbound
                  _ = secs.length * (B + 1) ^ k := by
                      rw [List.length_map, smul_eq_mul]
                  _ ≤ B * (B + 1) ^ k := Nat.mul_le_mul_right _ hlen
                  _ < (B + 1) * (B + 1) ^ k :=
                      mul_lt_mul_of_pos_right (Nat.lt_succ_self B)
                        (pow_pos (Nat.succ_pos B) k)
                  _ = (B + 1) ^ (k + 1) := by rw [pow_succ, mul_comm]
            have hw : (((rest ++ secs).map (fun x => (B + 1) ^ h x)).sum < n) := by
              have hsum : (((rest ++ secs).map (fun x => (B + 1) ^ h x)).sum) =
                  (rest.map (fun x => (B + 1) ^ h x)).sum +
                  (secs.map (fun x => (B + 1) ^ h x)).sum := by
                rw [List.map_append, List.sum_append]
              have hcons : (((obj :: rest).map (fun x => (B + 1) ^ h x)).sum) =
                  (B + 1) ^ h obj +
                  (rest.map (fun x => (B + 1) ^ h x)).sum := by
                simp
              rw [hcons] at hq
              rw [hsum]
              omega
            obtain ⟨r, hr⟩ := ih (rest ++ secs) (insert (getObjectRef obj) s)
              (fun k => if k = getObjectRef obj then some obj else m k) hw
            refine ⟨r, ?_⟩
            simp only [collectLoop, hsec]
            exact hr
    obtain ⟨r, hr⟩ := key ((B + 1) ^ h root + 1) [root] ∅ (fun _ => none)
      (by simp)
    exact ⟨(B + 1) ^ h root + 1, r, hr⟩

end KB

namespace KB

/-- Witness for the amended C9: a Cluster-owns-Pod rule set is ranked
(Pod below Cluster, one secondary per query), so the collector
terminates on it. -/
theorem C9_collector_steps_and_termination_witness :
    ∃ fuel r, getObjectsFromCache envPod rulesOne fuel objCluster = some r := by
  refine (C9_collector_steps_and_termination envPod rulesOne).2.2
    (fun x => if x.gvk = gvkPod then 0 else 1) 1 ?_ objCluster
  intro x l hxl
  have hparse : objectTypeToGVKCore typeCluster = .ok gvkCluster := rfl
  have hm : matchedRulesOf x.gvk rulesOne =
      (if gvkCluster = x.gvk then .ok rulesOne else .ok []) := by
    simp only [rulesOne, matchedRulesOf, hparse]
  have hsec : getSecondaryObjectsOf envPod x rulesOne =
      .ok (if gvkCluster = x.gvk then [objPod] else []) := by
    unfold getSecondaryObjectsOf
    rw [hm]
    by_cases hg : gvkCluster = x.gvk
    · rw [if_pos hg, if_pos hg]
      show collectSecondaries envPod x rulesOne = .ok [objPod]
      rfl
    · rw [if_neg hg, if_neg hg]
      show collectSecondaries envPod x [] = .ok []
      rfl
  rw [hsec] at hxl
  injection hxl with h1
  by_cases hg : gvkCluster = x.gvk
  · rw [if_pos hg] at h1
    rw [← h1]
    refine ⟨by simp, ?_⟩
    intro y hy
    rw [List.mem_singleton.mp hy]
    have hx : ¬ (x.gvk = gvkPod) := by
      rw [← hg]
      decide
    simp only [if_neg hx]
    have hp : objPod.gvk = gvkPod := rfl
    simp [hp]
  · rw [if_neg hg] at h1
    rw [← h1]
    exact ⟨by simp, by simp⟩

end KB
